import Mathlib

/-!
Verification of the structured-record interchange codec of the `idp`
repository (frontend/lib export and import utilities).  The embedding
translates the current TypeScript codec: `convertToCSV`, `extractPrimaryContent`,
`findTextContent`, `convertToXML`, `jsonToXML`, `getSafeXmlTag`, `escapeXML`,
`parseCSV`, `parseCSVLine`, `parseXML` and `xmlElementToJson`.

Modelling conventions:
* Text is `List Char` (the JS string, viewed as a sequence of code points).
* Dynamic JS values (the untyped `output` field) are the tagged union `Value`
  with an explicit `vUndef` for the JS undefined value.
* JS numbers are modelled as integers; the codec only manipulates them through
  `JSON.stringify` / `JSON.parse` / `String(...)`, all of which agree with the
  integer presentation on integral values.  JSON fraction and exponent forms
  are consequently outside the model.
* A JS `TypeError` (calling `.replace` on a non-string) is modelled by an
  `Option` result: `none` means the function throws.
* `JSON.parse` is modelled by `jsonParse` below; `DOMParser` by `xmlParse`
  further down.  A parse error of `DOMParser` (which yields a document holding
  no record elements) is modelled as `none`.
-/

set_option maxRecDepth 10000

namespace Idp

/-- The dynamic value model: the shapes a record `output` can take. -/
inductive Value where
  | vNull : Value
  | vUndef : Value
  | vBool : Bool → Value
  | vNum : Int → Value
  | vStr : List Char → Value
  | vList : List Value → Value
  | vMap : List (List Char × Value) → Value
deriving Repr

/-- A record of the dataset: `{ agent_type: string, output: any }`. -/
structure Record where
  agent_type : List Char
  output : Value
deriving Repr

/-- A dataset: `{ results: DatasetItem[] }`. -/
structure Dataset where
  results : List Record
deriving Repr

namespace Value

/-- JS truthiness of a value. -/
def truthy : Value → Bool
  | vNull => false
  | vUndef => false
  | vBool b => b
  | vNum n => n ≠ 0
  | vStr s => s ≠ []
  | vList _ => true
  | vMap _ => true

/-- `typeof x === 'object'` (true for objects, arrays and null). -/
def isObjType : Value → Bool
  | vMap _ => true
  | vList _ => true
  | vNull => true
  | _ => false

/-- `typeof x === 'string'`. -/
def isStrType : Value → Bool
  | vStr _ => true
  | _ => false

/-- The enumerable own entries of a value, as seen by `Object.entries`,
`Object.keys` and `for (const k in obj)`: the key/value pairs of an object,
the index/element pairs of an array, nothing for primitives. -/
def objEntries : Value → List (List Char × Value)
  | vMap kvs => kvs
  | vList xs => (xs.enum.map fun p => ((Nat.repr p.1).data, p.2))
  | _ => []

/-- Property read `x[k]`: undefined when absent or when the receiver is not
an object/array (the call sites never read a property of null). -/
def getProp (v : Value) (k : List Char) : Value :=
  match (v.objEntries.find? fun p => p.1 = k) with
  | some p => p.2
  | none => vUndef

end Value

export Value (vNull vUndef vBool vNum vStr vList vMap)

/-- Decimal digits of a natural number, most significant first; the fuel
(first argument) is structural so that the kernel can evaluate, and any
fuel above the value gives the fixed answer. -/
def natToCharsF : Nat → Nat → List Char
  | 0, _ => []
  | f + 1, n =>
    if n < 10 then [Nat.digitChar n]
    else natToCharsF f (n / 10) ++ [Nat.digitChar (n % 10)]

/-- Decimal digits of a natural number, most significant first. -/
def natToChars (n : Nat) : List Char := natToCharsF (n + 1) n

/-- Decimal text of an integer, as produced by JS `String(n)` for an
integral number. -/
def intToChars (n : Int) : List Char :=
  if n < 0 then '-' :: natToChars n.natAbs else natToChars n.natAbs

/-- String coercion `String(x)` of JS (template-literal interpolation). -/
def jsStringOf : Value → List Char
  | vNull => 'n' :: 'u' :: 'l' :: ['l']
  | vUndef => "undefined".data
  | vBool true => "true".data
  | vBool false => "false".data
  | vNum n => intToChars n
  | vStr s => s
  | vList xs =>
    List.intercalate [','] (xs.map fun x =>
      match x with
      | vNull => []
      | vUndef => []
      | _ => jsStringOfShallow x)
  | vMap _ => "[object Object]".data
where
  /-- One level of the array `toString` join (nested arrays join again, deeper
  nesting is irrelevant to every call site of this model). -/
  jsStringOfShallow : Value → List Char
  | vNull => 'n' :: 'u' :: 'l' :: ['l']
  | vUndef => "undefined".data
  | vBool true => "true".data
  | vBool false => "false".data
  | vNum n => intToChars n
  | vStr s => s
  | vList _ => []
  | vMap _ => "[object Object]".data

/-- The JSON escape of a single string character, following
`JSON.stringify`: quote and backslash get a backslash escape, the five
named control characters get their short escapes, every other control
character becomes a `\u00XX` escape, anything else is kept. -/
def escapeJChar (c : Char) : List Char :=
  if c = '"' then ['\\', '"']
  else if c = '\\' then ['\\', '\\']
  else if c = '\x08' then ['\\', 'b']
  else if c = '\t' then ['\\', 't']
  else if c = '\n' then ['\\', 'n']
  else if c = '\x0c' then ['\\', 'f']
  else if c = '\r' then ['\\', 'r']
  else if c.toNat < 32 then
    ['\\', 'u', '0', '0', Nat.digitChar (c.toNat / 16), Nat.digitChar (c.toNat % 16)]
  else [c]

/-- JSON escape of a whole string body. -/
def escapeJ (s : List Char) : List Char :=
  s.foldr (fun c acc => escapeJChar c ++ acc) []

/-- A JSON string literal: quote, escaped body, quote. -/
def jStrLit (s : List Char) : List Char := '"' :: escapeJ s ++ ['"']

mutual

/-- `JSON.stringify` (compact form, no spacing).  Returns `none` exactly when
JS returns the undefined value instead of a string (top value undefined);
undefined array elements print as null, undefined object entries are dropped. -/
def jstr : Value → Option (List Char)
  | vUndef => none
  | vNull => some ('n' :: 'u' :: 'l' :: ['l'])
  | vBool true => some "true".data
  | vBool false => some "false".data
  | vNum n => some (intToChars n)
  | vStr s => some (jStrLit s)
  | vList xs => some ('[' :: jstrItems xs ++ [']'])
  | vMap kvs => some ('{' :: jstrMembers kvs ++ ['}'])

/-- Array elements, comma-joined; an undefined element prints as null. -/
def jstrItems : List Value → List Char
  | [] => []
  | [x] => (jstr x).getD ('n' :: 'u' :: 'l' :: ['l'])
  | x :: y :: xs =>
    (jstr x).getD ('n' :: 'u' :: 'l' :: ['l']) ++ ',' :: jstrItems (y :: xs)

/-- Object members, comma-joined; a member with an undefined value is
dropped. -/
def jstrMembers : List (List Char × Value) → List Char
  | [] => []
  | (k, v) :: kvs =>
    match jstr v with
    | none => jstrMembers kvs
    | some sv =>
      let rest := jstrMembers kvs
      jStrLit k ++ ':' :: sv ++ (if rest = [] then [] else ',' :: rest)

end

/-- JSON whitespace. -/
def isJWS (c : Char) : Bool := c = ' ' ∨ c = '\t' ∨ c = '\n' ∨ c = '\r'

/-- Drop leading JSON whitespace. -/
def skipWS : List Char → List Char
  | [] => []
  | c :: cs => if isJWS c then skipWS cs else c :: cs

/-- Numeric value of a hex digit. -/
def hexVal (c : Char) : Option Nat :=
  if '0' ≤ c ∧ c ≤ '9' then some (c.toNat - '0'.toNat)
  else if 'a' ≤ c ∧ c ≤ 'f' then some (c.toNat - 'a'.toNat + 10)
  else if 'A' ≤ c ∧ c ≤ 'F' then some (c.toNat - 'A'.toNat + 10)
  else none

/-- Parse the body of a JSON string literal (after the opening quote),
returning the decoded characters and the remainder after the closing
quote.  Raw control characters are rejected, as in `JSON.parse`. -/
def parseJStringBody (cs : List Char) : Option (List Char × List Char) :=
  match cs with
  | [] => none
  | c :: rest =>
    if c = '"' then some ([], rest)
    else if c = '\\' then
      match rest with
      | [] => none
      | e :: rest2 =>
        if e = '"' then (parseJStringBody rest2).map fun p => ('"' :: p.1, p.2)
        else if e = '\\' then (parseJStringBody rest2).map fun p => ('\\' :: p.1, p.2)
        else if e = '/' then (parseJStringBody rest2).map fun p => ('/' :: p.1, p.2)
        else if e = 'b' then (parseJStringBody rest2).map fun p => ('\x08' :: p.1, p.2)
        else if e = 'f' then (parseJStringBody rest2).map fun p => ('\x0c' :: p.1, p.2)
        else if e = 'n' then (parseJStringBody rest2).map fun p => ('\n' :: p.1, p.2)
        else if e = 'r' then (parseJStringBody rest2).map fun p => ('\r' :: p.1, p.2)
        else if e = 't' then (parseJStringBody rest2).map fun p => ('\t' :: p.1, p.2)
        else if e = 'u' then
          match rest2 with
          | h1 :: h2 :: h3 :: h4 :: rest3 =>
            match hexVal h1, hexVal h2, hexVal h3, hexVal h4 with
            | some d1, some d2, some d3, some d4 =>
              (parseJStringBody rest3).map fun p =>
                (Char.ofNat (((d1 * 16 + d2) * 16 + d3) * 16 + d4) :: p.1, p.2)
            | _, _, _, _ => none
          | _ => none
        else none
    else if c.toNat < 32 then none
    else (parseJStringBody rest).map fun p => (c :: p.1, p.2)

/-- Digit run value, most significant first. -/
def digitsToNat (ds : List Char) : Nat :=
  ds.foldl (fun acc c => 10 * acc + (c.toNat - '0'.toNat)) 0

/-- Parse a JSON natural number literal: a maximal digit run without a
redundant leading zero. -/
def parseNatNum (cs : List Char) : Option (Nat × List Char) :=
  let ds := cs.takeWhile Char.isDigit
  let rest := cs.dropWhile Char.isDigit
  match ds with
  | [] => none
  | [d] => some (d.toNat - '0'.toNat, rest)
  | d :: _ :: _ => if d = '0' then none else some (digitsToNat ds, rest)

/-- Match an expected literal tail. -/
def stripLit : List Char → List Char → Option (List Char)
  | [], cs => some cs
  | l :: ls, c :: cs => if c = l then stripLit ls cs else none
  | _ :: _, [] => none

/-- Comma-separated array items up to the closing bracket, parameterised
by the value parser; the fuel bounds the item count. -/
def parseItemsW (pv : List Char → Option (Value × List Char)) :
    Nat → List Char → Option (List Value × List Char)
  | 0, _ => none
  | g + 1, cs =>
    match pv cs with
    | none => none
    | some (v, r) =>
      match skipWS r with
      | ',' :: r2 => (parseItemsW pv g r2).map fun p => (v :: p.1, p.2)
      | ']' :: r2 => some ([v], r2)
      | _ => none

/-- Comma-separated object members up to the closing brace, parameterised
by the value parser; the fuel bounds the member count. -/
def parseMembersW (pv : List Char → Option (Value × List Char)) :
    Nat → List Char → Option (List (List Char × Value) × List Char)
  | 0, _ => none
  | g + 1, cs =>
    match skipWS cs with
    | '"' :: rest =>
      match parseJStringBody rest with
      | none => none
      | some (k, r1) =>
        match skipWS r1 with
        | ':' :: r2 =>
          match pv r2 with
          | none => none
          | some (v, r3) =>
            match skipWS r3 with
            | ',' :: r4 => (parseMembersW pv g r4).map fun p => ((k, v) :: p.1, p.2)
            | '}' :: r4 => some ([(k, v)], r4)
            | _ => none
        | _ => none
    | _ => none

/-- The JSON value parser behind `JSON.parse`.  The first argument is a
nesting-depth fuel: each bracket level consumes one unit, so any fuel
larger than the nesting depth of the text gives the fixed parse. -/
def parseValueF : Nat → List Char → Option (Value × List Char)
  | 0, _ => none
  | f + 1, cs =>
    match skipWS cs with
    | [] => none
    | c :: rest =>
      if c = '"' then (parseJStringBody rest).map fun p => (vStr p.1, p.2)
      else if c = '[' then
        match skipWS rest with
        | ']' :: r => some (vList [], r)
        | ws => (parseItemsW (parseValueF f) (ws.length + 1) ws).map fun p => (vList p.1, p.2)
      else if c = '{' then
        match skipWS rest with
        | '}' :: r => some (vMap [], r)
        | ws => (parseMembersW (parseValueF f) (ws.length + 1) ws).map fun p => (vMap p.1, p.2)
      else if c = 'n' then (stripLit ['u', 'l', 'l'] rest).map fun r => (vNull, r)
      else if c = 't' then (stripLit ['r', 'u', 'e'] rest).map fun r => (vBool true, r)
      else if c = 'f' then (stripLit ['a', 'l', 's', 'e'] rest).map fun r => (vBool false, r)
      else if c = '-' then (parseNatNum rest).map fun p => (vNum (-(p.1 : Int)), p.2)
      else if c.isDigit then (parseNatNum (c :: rest)).map fun p => (vNum (p.1 : Int), p.2)
      else none

/-- `JSON.parse`: parse one value and require only whitespace afterwards.
`none` models a thrown SyntaxError. -/
def jsonParse (cs : List Char) : Option Value :=
  match parseValueF (cs.length + 1) cs with
  | some (v, rest) => if skipWS rest = [] then some v else none
  | none => none

/-! ## Content Summarizer: `extractPrimaryContent` and `findTextContent` -/

/-- `typeof x === 'object' && x !== null`. -/
def isObjNonNull : Value → Bool
  | vMap _ => true
  | vList _ => true
  | _ => false

/-- JS whitespace as used by `trim` (the ASCII part, which is all the
codec ever produces). -/
def isWSJS (c : Char) : Bool :=
  c = ' ' ∨ c = '\t' ∨ c = '\n' ∨ c = '\r' ∨ c = '\x0b' ∨ c = '\x0c'

/-- `s.trim()`. -/
def trimJS (s : List Char) : List Char :=
  ((s.dropWhile isWSJS).reverse.dropWhile isWSJS).reverse

/-- Field-name priority of `findTextContent`. -/
def ftcFields : List (List Char) :=
  ["text".data, "content".data, "description".data, "transcript".data,
   "summary".data, "message".data]

/-- Field-name priority of the general case of `extractPrimaryContent`. -/
def epcFields : List (List Char) :=
  ["text".data, "content".data, "transcript".data, "summary".data,
   "description".data, "message".data]

/-- First listed field whose value is a string with non-blank trim
(the first loop of `findTextContent`). -/
def firstTrimmedTextField (v : Value) : Option (List Char) :=
  ftcFields.findSome? fun k =>
    match v.getProp k with
    | vStr s => if trimJS s ≠ [] then some s else none
    | _ => none

/-- The second loop of `findTextContent`: recurse into object-valued
entries, first non-empty result wins. -/
def searchEntries (f : Value → List Char) : List (List Char × Value) → List Char
  | [] => []
  | (_, val) :: rest =>
    if isObjNonNull val then
      let found := f val
      if found ≠ [] then found else searchEntries f rest
    else searchEntries f rest

/-- `findTextContent(obj, maxDepth, currentDepth)`, with the remaining
depth `maxDepth - currentDepth` as fuel: the body first checks
`currentDepth >= maxDepth` and then recurses with `currentDepth + 1`. -/
def findTextContentF : Nat → Value → List Char
  | 0, _ => []
  | d + 1, v =>
    if ¬ isObjNonNull v then []
    else
      match firstTrimmedTextField v with
      | some s => s
      | none => searchEntries (findTextContentF d) v.objEntries

/-- The `[Complex data with keys: ...]` fallback text. -/
def placeholderText (v : Value) : List Char :=
  "[Complex data with keys: ".data ++
    List.intercalate ", ".data (v.objEntries.map Prod.fst) ++ [']']

/-- The object case of `extractPrimaryContent`.  The result is a `Value`
because the audio-transcription and `analysis.*` branches return whatever
dynamic value sits there (the enclosing callers then throw on
non-strings). -/
def extractFromObject (agent : List Char) (out : Value) : Value :=
  let tr := out.getProp "transcription".data
  if agent = "audio".data ∧ tr.truthy ∧ (tr.getProp "text".data).truthy then
    tr.getProp "text".data
  else
    let an := out.getProp "analysis".data
    let fromAnalysis : Option Value :=
      if an.truthy then
        if an.isStrType then some an
        else if (an.getProp "transcript".data).truthy then some (an.getProp "transcript".data)
        else if (an.getProp "summary".data).truthy then some (an.getProp "summary".data)
        else if (an.getProp "description".data).truthy then some (an.getProp "description".data)
        else none
      else none
    match fromAnalysis with
    | some v => v
    | none =>
      match (epcFields.findSome? fun k =>
        match out.getProp k with
        | vStr s => if s ≠ [] then some (vStr s) else none
        | _ => none) with
      | some v => v
      | none =>
        let tc := findTextContentF 3 out
        if tc ≠ [] then vStr tc else vStr (placeholderText out)

/-- `extractPrimaryContent(item)`.  Strings are returned as they are,
null and undefined give the empty string, objects and arrays go through
the object case, and remaining primitives are coerced with `String(...)`. -/
def extractPrimaryContent (item : Record) : Value :=
  match item.output with
  | vStr s => vStr s
  | vNull => vStr []
  | vUndef => vStr []
  | vBool b => vStr (jsStringOf (vBool b))
  | vNum n => vStr (jsStringOf (vNum n))
  | out => extractFromObject item.agent_type out

/-! ## Tabular codec: `convertToCSV`, `parseCSVLine`, `parseCSV` -/

/-- The current 3-column header row. -/
def csvHeader3 : List Char := "agent_type,raw_json,primary_content".data

/-- `s.replace(/"/g, '""')`. -/
def doubleQuotes (s : List Char) : List Char :=
  s.foldr (fun c acc => if c = '"' then '"' :: '"' :: acc else c :: acc) []

/-- The receiver of a `.replace` call: a JS `TypeError` is thrown
(`none`) when the value is not a string. -/
def toStringE : Value → Option (List Char)
  | vStr s => some s
  | _ => none

/-- One data row of `convertToCSV`:
`agent_type,"<raw json, quotes doubled>","<primary content, quotes doubled>"`.
`none` models the two throw points: `JSON.stringify` returning undefined
and `extractPrimaryContent` returning a non-string. -/
def csvRow (item : Record) : Option (List Char) := do
  let rawJson ← jstr item.output
  let primary ← toStringE (extractPrimaryContent item)
  some (item.agent_type ++ ',' :: '"' :: doubleQuotes rawJson ++
    '"' :: ',' :: '"' :: doubleQuotes primary ++ ['"'])

/-- `[header, ...rows].join('\\n')`. -/
def joinSep (sep : Char) : List (List Char) → List Char
  | [] => []
  | [l] => l
  | l :: l2 :: ls => l ++ sep :: joinSep sep (l2 :: ls)

/-- `convertToCSV`: header only for an empty dataset, otherwise header and
one row per record joined with newlines. -/
def convertToCSV (d : Dataset) : Option (List Char) :=
  if d.results.isEmpty then some csvHeader3
  else (d.results.mapM csvRow).map fun rows =>
    joinSep '\n' (csvHeader3 :: rows)

/-- The field scanner of `parseCSVLine`: a quote toggles quote mode
unless it is the first of a doubled pair inside quotes (then one literal
quote is emitted), an unquoted comma ends the field, anything else is
appended. -/
def parseCSVLineAux : List Char → Bool → List Char → List (List Char) → List (List Char)
  | [], _, cur, acc => acc ++ [cur]
  | c :: rest, inQ, cur, acc =>
    if c = '"' then
      if inQ then
        match rest with
        | '"' :: rest2 => parseCSVLineAux rest2 inQ (cur ++ ['"']) acc
        | [] => parseCSVLineAux [] false cur acc
        | c2 :: rest2 => parseCSVLineAux (c2 :: rest2) false cur acc
      else parseCSVLineAux rest true cur acc
    else if c = ',' ∧ inQ = false then parseCSVLineAux rest inQ [] (acc ++ [cur])
    else parseCSVLineAux rest inQ (cur ++ [c]) acc

/-- `parseCSVLine(line)`. -/
def parseCSVLine (line : List Char) : List (List Char) :=
  parseCSVLineAux line false [] []

/-- `csv.split('\n')`. -/
def splitOnChar (sep : Char) : List Char → List (List Char)
  | [] => [[]]
  | c :: cs =>
    match splitOnChar sep cs with
    | [] => [[c]]
    | h :: t => if c = sep then [] :: h :: t else (c :: h) :: t

/-- Split into lines and drop the ones that are blank after trimming. -/
def nonBlankLines (csv : List Char) : List (List Char) :=
  (splitOnChar '\n' csv).filter fun l => trimJS l ≠ []

/-- ASCII lower-casing of `toLowerCase` (the header only contains ASCII). -/
def lowerJS (s : List Char) : List Char :=
  s.map fun c => if 'A' ≤ c ∧ c ≤ 'Z' then Char.ofNat (c.toNat + 32) else c

/-- `hay.includes(needle)`: the needle occurs contiguously in the hay. -/
def containsSub (needle : List Char) : List Char → Bool
  | [] => needle.isEmpty
  | c :: rest => List.isPrefixOf needle (c :: rest) || containsSub needle rest

/-- The legacy 2-column cell rule: parse as JSON only when the trimmed
text is brace- or bracket-delimited, keep the text on parse failure. -/
def legacyCell (t : List Char) : Value :=
  let tr := trimJS t
  if (tr.head? = some '{' ∧ tr.getLast? = some '}') ∨
     (tr.head? = some '[' ∧ tr.getLast? = some ']') then
    match jsonParse t with
    | some v => v
    | none => vStr t
  else vStr t

/-- One data row of `parseCSV`: tokenised with `parseCSVLine`; rows with
fewer than two fields are skipped; in the 3-column format the second
field is parsed as JSON with fallback to the third field as a plain
string; otherwise the legacy cell rule applies to the second field. -/
def parseCSVRow (is3 : Bool) (line : List Char) : Option Record :=
  let fields := parseCSVLine line
  if fields.length < 2 then none
  else
    let output :=
      if is3 ∧ fields.length ≥ 3 then
        match jsonParse (fields.getD 1 []) with
        | some v => v
        | none => vStr (if fields.length ≥ 3 then fields.getD 2 [] else fields.getD 1 [])
      else legacyCell (fields.getD 1 [])
    some ⟨fields.getD 0 [], output⟩

/-- `parseCSV(csv)`: drop blank lines, sniff the header for the 3-column
tokens, decode every remaining row. -/
def parseCSV (csv : List Char) : Dataset :=
  match nonBlankLines csv with
  | [] => ⟨[]⟩
  | header :: rows =>
    let is3 := containsSub "raw_json".data (lowerJS header) &&
      containsSub "primary_content".data (lowerJS header)
    ⟨rows.filterMap (parseCSVRow is3)⟩

/-! ## Markup codec, encoding side: `escapeXML`, `getSafeXmlTag`,
`jsonToXML`, `convertToXML` -/

/-- One character of `escapeXML`.  The source chains five global
replaces, ampersand first; since no replacement text contains a
character that a later pass rewrites, the chain equals this per-character
map. -/
def escXChar (c : Char) : List Char :=
  if c = '&' then "&amp;".data
  else if c = '<' then "&lt;".data
  else if c = '>' then "&gt;".data
  else if c = '"' then "&quot;".data
  else if c = '\'' then "&apos;".data
  else [c]

/-- `escapeXML(unsafe)`. -/
def escapeXML (s : List Char) : List Char :=
  s.foldr (fun c acc => escXChar c ++ acc) []

/-- The character class `[a-zA-Z0-9_]` kept by `getSafeXmlTag`. -/
def isSafeTagChar (c : Char) : Bool :=
  ('a' ≤ c ∧ c ≤ 'z') ∨ ('A' ≤ c ∧ c ≤ 'Z') ∨ ('0' ≤ c ∧ c ≤ '9') ∨ c = '_'

/-- `getSafeXmlTag(key)`: replace every character outside `[a-zA-Z0-9_]`
with an underscore, then prefix an underscore when the result is empty
or starts with a digit. -/
def getSafeXmlTag (key : List Char) : List Char :=
  let safeKey := key.map fun c => if isSafeTagChar c then c else '_'
  if (match safeKey with
      | c :: _ => c.isDigit
      | [] => false) || safeKey.isEmpty then '_' :: safeKey
  else safeKey

/-- `' '.repeat(indent)`. -/
def spacesN (n : Nat) : List Char := List.replicate n ' '

mutual

/-- `jsonToXML(obj, indent)`: null and undefined print the self-closing
null node, arrays print indexed item nodes, objects one node per
sanitized key, primitives their escaped string coercion. -/
def jsonToXML : Value → Nat → List Char
  | vNull, indent => spacesN indent ++ "<null/>\n".data
  | vUndef, indent => spacesN indent ++ "<null/>\n".data
  | vList xs, indent => jsonToXMLItems xs 0 indent
  | vMap kvs, indent => jsonToXMLEntries kvs indent
  | vBool b, indent => spacesN indent ++ escapeXML (jsStringOf (vBool b)) ++ ['\n']
  | vNum n, indent => spacesN indent ++ escapeXML (jsStringOf (vNum n)) ++ ['\n']
  | vStr s, indent => spacesN indent ++ escapeXML s ++ ['\n']

/-- The array branch of `jsonToXML`: `<item index="i">` wrappers, object
elements recurse with two more indent spaces, primitive elements are
emitted as escaped text. -/
def jsonToXMLItems : List Value → Nat → Nat → List Char
  | [], _, _ => []
  | x :: xs, idx, indent =>
    spacesN indent ++ "<item index=\"".data ++ natToChars idx ++ "\">\n".data ++
    (if isObjNonNull x then jsonToXML x (indent + 2)
     else spacesN indent ++ ' ' :: ' ' :: escapeXML (jsStringOf x) ++ ['\n']) ++
    spacesN indent ++ "</item>\n".data ++
    jsonToXMLItems xs (idx + 1) indent

/-- The object branch of `jsonToXML`: undefined entries are skipped, null
entries print a self-closing node with the nil flag attribute, object
entries recurse, primitive entries print escaped text content. -/
def jsonToXMLEntries : List (List Char × Value) → Nat → List Char
  | [], _ => []
  | (key, value) :: kvs, indent =>
    (match value with
     | vUndef => []
     | vNull => spacesN indent ++ '<' :: getSafeXmlTag key ++ " nil=\"true\"/>\n".data
     | v =>
       if isObjNonNull v then
         spacesN indent ++ '<' :: getSafeXmlTag key ++ ">\n".data ++
         jsonToXML v (indent + 2) ++
         spacesN indent ++ '<' :: '/' :: getSafeXmlTag key ++ ">\n".data
       else
         spacesN indent ++ '<' :: getSafeXmlTag key ++ '>' :: escapeXML (jsStringOf v) ++
           '<' :: '/' :: getSafeXmlTag key ++ ">\n".data) ++
    jsonToXMLEntries kvs indent

end

/-- `segment.text || ''` fed to `escapeXML`: a falsy value becomes the
empty string, a truthy non-string receiver throws. -/
def escTextOrEmpty (v : Value) : Option (List Char) :=
  if v.truthy then (toStringE v).map escapeXML else some []

/-- One `<segment>` block of the audio branch, with the JS defaulting of
`id`/`start`/`end`/`confidence` against the undefined value. -/
def segmentXML (seg : Value) (idx : Nat) : Option (List Char) := do
  let idv := match seg.getProp "id".data with
    | vUndef => vNum (idx : Int)
    | v => v
  let startv := match seg.getProp "start".data with
    | vUndef => vNum 0
    | v => v
  let endv := match seg.getProp "end".data with
    | vUndef => vNum 0
    | v => v
  let confv := match seg.getProp "confidence".data with
    | vUndef => vNum 1
    | v => v
  let st ← escTextOrEmpty (seg.getProp "text".data)
  some ("          <segment>\n".data ++
    "            <id>".data ++ jsStringOf idv ++ "</id>\n".data ++
    "            <start>".data ++ jsStringOf startv ++ "</start>\n".data ++
    "            <end>".data ++ jsStringOf endv ++ "</end>\n".data ++
    "            <text>".data ++ st ++ "</text>\n".data ++
    "            <confidence>".data ++ jsStringOf confv ++ "</confidence>\n".data ++
    "          </segment>\n".data)

/-- The segments of the audio branch, in order with their indices. -/
def segmentsXML : List Value → Nat → Option (List Char)
  | [], _ => some []
  | seg :: rest, idx => do
    let s ← segmentXML seg idx
    let r ← segmentsXML rest (idx + 1)
    some (s ++ r)

/-- The audio-transcription special case of the `<output>` body. -/
def audioOutputXML (out : Value) : Option (List Char) := do
  let tr := out.getProp "transcription".data
  let textPart ←
    (if (tr.getProp "text".data).truthy then
      (toStringE (tr.getProp "text".data)).map fun t =>
        "        <text>".data ++ escapeXML t ++ "</text>\n".data
    else some [])
  let segPart ←
    (match tr.getProp "segments".data with
     | vList segs => do
       let body ← segmentsXML segs 0
       some ("        <segments>\n".data ++ body ++ "        </segments>\n".data)
     | _ => some [])
  let an := out.getProp "analysis".data
  let anPart :=
    if an.truthy then
      "      <analysis>\n".data ++ jsonToXML an 8 ++ "      </analysis>\n".data
    else []
  some ("      <transcription>\n".data ++ textPart ++ segPart ++
    "      </transcription>\n".data ++ anPart)

/-- The `<output>` element of one record in `convertToXML`. -/
def outputXML (item : Record) : Option (List Char) :=
  match item.output with
  | vStr s => some ("    <output>".data ++ escapeXML s ++ "</output>\n".data)
  | vMap kvs =>
    (if item.agent_type = "audio".data ∧ ((vMap kvs).getProp "transcription".data).truthy
     then audioOutputXML (vMap kvs)
     else some (jsonToXML (vMap kvs) 6)).map fun inner =>
      "    <output>\n".data ++ inner ++ "    </output>\n".data
  | vList xs =>
    (if item.agent_type = "audio".data ∧ ((vList xs).getProp "transcription".data).truthy
     then audioOutputXML (vList xs)
     else some (jsonToXML (vList xs) 6)).map fun inner =>
      "    <output>\n".data ++ inner ++ "    </output>\n".data
  | v => some ("    <output>".data ++ escapeXML (jsStringOf v) ++ "</output>\n".data)

/-- One `<result>` element of `convertToXML`. -/
def resultXML (item : Record) : Option (List Char) := do
  let outPart ← outputXML item
  some ("  <result>\n    <agent_type>".data ++ escapeXML item.agent_type ++
    "</agent_type>\n".data ++ outPart ++ "  </result>\n".data)

/-- `convertToXML(dataset)`: declaration, `<dataset>` root, one result
element per record.  `none` models the throw points of the audio branch
(`escapeXML` applied to a truthy non-string). -/
def convertToXML (dataset : Dataset) : Option (List Char) := do
  let bodies ← dataset.results.mapM resultXML
  some ("<?xml version=\"1.0\" encoding=\"UTF-8\"?>\n<dataset>\n".data ++
    bodies.foldr (· ++ ·) [] ++ "</dataset>".data)

/-! ## The DOM model used by `parseXML`: node trees, `DOMParser`,
`getElementsByTagName`, `textContent`, `children`, attributes -/

/-- An XML DOM node: an element with tag, attributes and child nodes, or
a text node. -/
inductive XNode where
  | elem (tag : List Char) (attrs : List (List Char × List Char)) (children : List XNode) : XNode
  | text (s : List Char) : XNode
deriving Repr

namespace XNode

/-- Element test. -/
def isElem : XNode → Bool
  | elem _ _ _ => true
  | text _ => false

/-- `tagName` (only ever read on elements). -/
def tagOf : XNode → List Char
  | elem t _ _ => t
  | text _ => []

/-- `getAttribute`, null as `none`. -/
def getAttr : XNode → List Char → Option (List Char)
  | elem _ attrs _, name => (attrs.find? fun p => p.1 = name).map Prod.snd
  | text _, _ => none

/-- `hasAttribute`. -/
def hasAttr (n : XNode) (name : List Char) : Bool := (n.getAttr name).isSome

/-- `element.children`: the element children only. -/
def elemChildren : XNode → List XNode
  | elem _ _ ch => ch.filter isElem
  | text _ => []

end XNode

mutual

/-- `textContent`: concatenated text of the whole subtree. -/
def textContent : XNode → List Char
  | .text s => s
  | .elem _ _ ch => textContentL ch

def textContentL : List XNode → List Char
  | [] => []
  | n :: ns => textContent n ++ textContentL ns

end

mutual

/-- `getElementsByTagName` seen from a node counted as candidate itself:
document-order (pre-order) matching elements of the subtree, the node
included. -/
def elemsByTagIncl (tag : List Char) : XNode → List XNode
  | .text _ => []
  | .elem t a ch =>
    (if t = tag then [XNode.elem t a ch] else []) ++ elemsByTagL tag ch

def elemsByTagL (tag : List Char) : List XNode → List XNode
  | [] => []
  | n :: ns => elemsByTagIncl tag n ++ elemsByTagL tag ns

end

/-- `element.getElementsByTagName`: matching proper descendants in
document order. -/
def descElemsByTag (n : XNode) (tag : List Char) : List XNode :=
  match n with
  | .elem _ _ ch => elemsByTagL tag ch
  | .text _ => []

/-- `parseInt(s, 10)`: optional sign after leading whitespace, then a
maximal digit prefix; NaN (`none`) without digits. -/
def parseIntJS (s : List Char) : Option Int :=
  let t := s.dropWhile isWSJS
  match t with
  | '-' :: rest =>
    (match rest.takeWhile Char.isDigit with
     | [] => none
     | ds => some (-(digitsToNat ds : Int)))
  | '+' :: rest =>
    (match rest.takeWhile Char.isDigit with
     | [] => none
     | ds => some ((digitsToNat ds : Int)))
  | _ =>
    (match t.takeWhile Char.isDigit with
     | [] => none
     | ds => some ((digitsToNat ds : Int)))

/-- JS array index assignment `arr[n] = v` for a nonnegative index:
in-range indices are overwritten, out-of-range assignment extends the
array with undefined holes. -/
def setExtend (arr : List Value) (n : Nat) (v : Value) : List Value :=
  if n < arr.length then arr.set n v
  else arr ++ List.replicate (n - arr.length) vUndef ++ [v]

/-- `result[parseInt(attr, 10)] = v` on a JS array: a NaN or negative
index sets a non-index property and leaves the array content unchanged. -/
def jsSetIndex (arr : List Value) (idx : Option Int) (v : Value) : List Value :=
  match idx with
  | some i => if 0 ≤ i then setExtend arr i.toNat v else arr
  | none => arr

/-- `result[key] = v` on a JS object: an existing key keeps its position
and gets the new value, a new key is appended. -/
def objIns (m : List (List Char × Value)) (k : List Char) (v : Value) :
    List (List Char × Value) :=
  if m.any fun p => p.1 = k then m.map fun p => if p.1 = k then (k, v) else p
  else m ++ [(k, v)]

/-- The declared index of a synthetic item node:
`parseInt(child.getAttribute('index') || '0', 10)`. -/
def declaredIdx (n : XNode) : Option Int :=
  parseIntJS (match n.getAttr "index".data with
    | some a => if a = [] then ['0'] else a
    | none => ['0'])

mutual

/-- `xmlElementToJson(element)`: no element children gives the text
content as a string; children that are all `item` elements with an
`index` attribute rebuild an array by declared index; anything else
rebuilds an object keyed by child tag names. -/
def xmlElementToJson : XNode → Value
  | .text s => vStr s
  | .elem t a ch =>
    let ech := (XNode.elem t a ch).elemChildren
    if ech.isEmpty then vStr (textContent (XNode.elem t a ch))
    else if ech.all fun c => c.tagOf = "item".data ∧ c.hasAttr "index".data then
      vList (xmlArrFold ch [])
    else vMap (xmlObjFold ch [])

/-- The array rebuild: fold the element children into a JS array through
indexed assignment (text nodes are not in `children`). -/
def xmlArrFold : List XNode → List Value → List Value
  | [], arr => arr
  | n :: ns, arr =>
    if n.isElem then xmlArrFold ns (jsSetIndex arr (declaredIdx n) (xmlElementToJson n))
    else xmlArrFold ns arr

/-- The object rebuild: fold the element children into a JS object keyed
by tag name (text nodes are not in `children`). -/
def xmlObjFold : List XNode → List (List Char × Value) → List (List Char × Value)
  | [], m => m
  | n :: ns, m =>
    if n.isElem then xmlObjFold ns (objIns m n.tagOf (xmlElementToJson n))
    else xmlObjFold ns m

end

/-! ## The markup text parser standing in for `DOMParser` (evaluation
only: claims about decoding are either stated on node trees or settled
on concrete documents). -/

/-- XML name characters accepted by the model. -/
def isNameChar (c : Char) : Bool :=
  c.isAlphanum ∨ c = '_' ∨ c = '-' ∨ c = '.' ∨ c = ':'

/-- Decode the five predefined entities of a text run or attribute
value; an unknown entity is a fatal parse error, as in XML. -/
def unescapeXML : List Char → Option (List Char)
  | [] => some []
  | c :: rest =>
    if c = '&' then
      match rest with
      | 'a' :: 'm' :: 'p' :: ';' :: r => (unescapeXML r).map ('&' :: ·)
      | 'a' :: 'p' :: 'o' :: 's' :: ';' :: r => (unescapeXML r).map ('\'' :: ·)
      | 'l' :: 't' :: ';' :: r => (unescapeXML r).map ('<' :: ·)
      | 'g' :: 't' :: ';' :: r => (unescapeXML r).map ('>' :: ·)
      | 'q' :: 'u' :: 'o' :: 't' :: ';' :: r => (unescapeXML r).map ('"' :: ·)
      | _ => none
    else (unescapeXML rest).map (c :: ·)

/-- Attribute list parser: stops in front of `>` or `/>`. -/
def xpAttrs : Nat → List Char → Option (List (List Char × List Char) × List Char)
  | 0, _ => none
  | f + 1, cs =>
    let ws := cs.dropWhile isWSJS
    match ws with
    | '>' :: r => some ([], '>' :: r)
    | '/' :: r => some ([], '/' :: r)
    | _ =>
      match ws.takeWhile isNameChar with
      | [] => none
      | nm =>
        match (ws.dropWhile isNameChar).dropWhile isWSJS with
        | '=' :: r2 =>
          match r2.dropWhile isWSJS with
          | '"' :: r3 =>
            (match (r3.dropWhile (· ≠ '"')) with
             | '"' :: r5 => do
               let uv ← unescapeXML (r3.takeWhile (· ≠ '"'))
               let (rest, r6) ← xpAttrs f r5
               some ((nm, uv) :: rest, r6)
             | _ => none)
          | '\'' :: r3 =>
            (match (r3.dropWhile (· ≠ '\'')) with
             | '\'' :: r5 => do
               let uv ← unescapeXML (r3.takeWhile (· ≠ '\''))
               let (rest, r6) ← xpAttrs f r5
               some ((nm, uv) :: rest, r6)
             | _ => none)
          | _ => none
        | _ => none

mutual

/-- Element parser: expects `<name attrs>` and recurses into content, or
a self-closing `<name attrs/>`. -/
def xpNode : Nat → List Char → Option (XNode × List Char)
  | 0, _ => none
  | f + 1, cs =>
    match cs with
    | '<' :: r1 =>
      (match r1.takeWhile isNameChar with
       | [] => none
       | nm => do
         let (attrs, r3) ← xpAttrs (r1.length + 1) (r1.dropWhile isNameChar)
         match r3 with
         | '/' :: '>' :: r4 => some (XNode.elem nm attrs [], r4)
         | '>' :: r4 => do
           let (children, r5) ← xpContent f nm r4
           some (XNode.elem nm attrs children, r5)
         | _ => none)
    | _ => none

/-- Content parser: text runs and child elements until the matching
close tag. -/
def xpContent : Nat → List Char → List Char → Option (List XNode × List Char)
  | 0, _, _ => none
  | f + 1, nm, cs =>
    match cs with
    | [] => none
    | '<' :: '/' :: r1 =>
      (match r1.takeWhile isNameChar with
       | cnm =>
         if cnm = nm then
           match r1.dropWhile isNameChar with
           | '>' :: r3 => some ([], r3)
           | _ => none
         else none)
    | '<' :: r1 => do
      let (child, r2) ← xpNode f ('<' :: r1)
      let (rest, r3) ← xpContent f nm r2
      some (child :: rest, r3)
    | c :: r1 => do
      let ut ← unescapeXML ((c :: r1).takeWhile (· ≠ '<'))
      let (rest, r3) ← xpContent f nm ((c :: r1).dropWhile (· ≠ '<'))
      some (XNode.text ut :: rest, r3)

end

/-- Skip an `<?xml ... ?>` declaration. -/
def dropDecl : List Char → List Char
  | [] => []
  | '?' :: '>' :: r => r
  | _ :: r => dropDecl r

/-- The `DOMParser` model: optional declaration, one root element, only
whitespace around it.  `none` stands for the browser error document, in
which the record-element lookups of `parseXML` find nothing. -/
def xmlParse (xml : List Char) : Option XNode :=
  let cs := xml.dropWhile isWSJS
  let cs2 := match cs with
    | '<' :: '?' :: r => dropDecl r
    | _ => cs
  match xpNode (2 * xml.length + 8) (cs2.dropWhile isWSJS) with
  | some (root, rest) => if rest.dropWhile isWSJS = [] then some root else none
  | none => none

/-! ## `parseXML`: the decoder over the DOM -/

/-- One record element of `parseXML`: the first `agent_type` descendant
text, then the first `output` (or legacy `o`) descendant, decoded as
plain text when it has no element children and through
`xmlElementToJson` otherwise. -/
def recordOf (re : XNode) : Record :=
  let agentType := match (descElemsByTag re "agent_type".data).head? with
    | some e => textContent e
    | none => []
  let oe := match (descElemsByTag re "output".data).head? with
    | some e => some e
    | none => (descElemsByTag re "o".data).head?
  let outputData : Value := match oe with
    | none => vStr []
    | some e =>
      if e.elemChildren.isEmpty then vStr (textContent e)
      else xmlElementToJson e
  ⟨agentType, outputData⟩

/-- `parseXML(xml)`: find the `result` record elements, falling back to
the legacy `r` tag; a document without a parse gives no records. -/
def parseXML (xml : List Char) : Dataset :=
  match xmlParse xml with
  | none => ⟨[]⟩
  | some root =>
    let rs := elemsByTagIncl "result".data root
    let res := if rs.isEmpty then elemsByTagIncl "r".data root else rs
    ⟨res.map recordOf⟩

/-! ## Predicates used in claim statements -/

/-- A primitive value: null, boolean, number or string. -/
def isPrimV : Value → Bool
  | vNull => true
  | vBool _ => true
  | vNum _ => true
  | vStr _ => true
  | _ => false

/-- The output class of the tabular round-trip claim: a string, number,
boolean, or a flat map of primitives. -/
def restrictedOut : Value → Bool
  | vStr _ => true
  | vNum _ => true
  | vBool _ => true
  | vMap kvs => kvs.all fun kv => isPrimV kv.2
  | _ => false

/-- An agent label without tabular delimiter characters: no comma, no
quote, no newline. -/
def noDelims (a : List Char) : Bool :=
  a.all fun c => c ≠ ',' ∧ c ≠ '"' ∧ c ≠ '\n'

/-- The summary column of a record is free of raw newlines. -/
def primaryNoNL (r : Record) : Bool :=
  match extractPrimaryContent r with
  | vStr s => s.all (· ≠ '\n')
  | _ => true

/-- The canonical text of one encoded 3-column row, right-nested for the
scanner lemmas; `csvRow` produces exactly this text on the restricted
output class. -/
def csvRowTextOf (a t p : List Char) : List Char :=
  a ++ (',' :: '"' :: (doubleQuotes t ++ ('"' :: ',' :: '"' :: (doubleQuotes p ++ ['"']))))

/-- The canonical row text of a record. -/
def csvRowText (r : Record) : List Char :=
  csvRowTextOf r.agent_type ((jstr r.output).getD [])
    ((toStringE (extractPrimaryContent r)).getD [])

/-- The last element child with a given tag name, in document order. -/
def lastWithTag (ns : List XNode) (tag : List Char) : Option XNode :=
  (ns.filter fun c => c.isElem ∧ c.tagOf = tag).getLast?

/-- The sanitization rule exactly as the specification words it: every
character outside A-Za-z0-9 and the underscore becomes an underscore,
and an underscore is prefixed exactly when the sanitized name is empty
or starts with a digit.  Stated to be compared with `getSafeXmlTag`. -/
def specSanitizedChar (c : Char) : Char :=
  if ('A' ≤ c ∧ c ≤ 'Z') ∨ ('a' ≤ c ∧ c ≤ 'z') ∨ ('0' ≤ c ∧ c ≤ '9') ∨ c = '_'
  then c else '_'

/-- The spec-worded sanitizer on whole keys. -/
def specSafeTag (key : List Char) : List Char :=
  let s := key.map specSanitizedChar
  if s.isEmpty || (match s.head? with | some c => c.isDigit | none => false)
  then '_' :: s else s

/-! ## Lemmas about the `parseCSVLine` scanner -/

/-- Scanner step: a character that is neither a quote nor a comma is
appended. -/
theorem scanStep_other (c : Char) (hc1 : c ≠ '"') (hc2 : c ≠ ',')
    (rest : List Char) (inQ : Bool) (cur : List Char) (acc : List (List Char)) :
    parseCSVLineAux (c :: rest) inQ cur acc = parseCSVLineAux rest inQ (cur ++ [c]) acc := by
  rw [parseCSVLineAux.eq_def]
  simp [hc1, hc2]

/-- Scanner step: inside quotes, a non-quote character is appended. -/
theorem scanStep_inq (c : Char) (hc1 : c ≠ '"')
    (rest : List Char) (cur : List Char) (acc : List (List Char)) :
    parseCSVLineAux (c :: rest) true cur acc = parseCSVLineAux rest true (cur ++ [c]) acc := by
  rw [parseCSVLineAux.eq_def]
  by_cases hc2 : c = ',' <;> simp [hc1, hc2]

/-- Scanner step: an unquoted comma ends the field. -/
theorem scanStep_comma (rest : List Char) (cur : List Char) (acc : List (List Char)) :
    parseCSVLineAux (',' :: rest) false cur acc = parseCSVLineAux rest false [] (acc ++ [cur]) := by
  rw [parseCSVLineAux.eq_def]
  simp

/-- Scanner step: an opening quote outside quote mode toggles it. -/
theorem scanStep_open (rest : List Char) (cur : List Char) (acc : List (List Char)) :
    parseCSVLineAux ('"' :: rest) false cur acc = parseCSVLineAux rest true cur acc := by
  cases rest with
  | nil => simp [parseCSVLineAux]
  | cons c rest2 => by_cases hc : c = '"' <;> simp [parseCSVLineAux, hc]

/-- Scanner step: a doubled quote inside quote mode emits one quote. -/
theorem scanStep_escq (rest2 : List Char) (cur : List Char) (acc : List (List Char)) :
    parseCSVLineAux ('"' :: '"' :: rest2) true cur acc =
      parseCSVLineAux rest2 true (cur ++ ['"']) acc := by
  simp [parseCSVLineAux]

/-- Scanner step: a closing quote (not followed by a quote) leaves quote
mode. -/
theorem scanStep_close (rest : List Char) (hrest : ∀ c, rest.head? = some c → c ≠ '"')
    (cur : List Char) (acc : List (List Char)) :
    parseCSVLineAux ('"' :: rest) true cur acc = parseCSVLineAux rest false cur acc := by
  cases rest with
  | nil => simp [parseCSVLineAux]
  | cons c rest2 =>
    have hc : c ≠ '"' := hrest c rfl
    simp [parseCSVLineAux, hc]

/-- Outside quotes, a run without quotes or commas is appended to the
current field. -/
theorem parseCSVLineAux_plain (a : List Char) (ha : ∀ c ∈ a, c ≠ '"' ∧ c ≠ ',')
    (rest : List Char) (cur : List Char) (acc : List (List Char)) :
    parseCSVLineAux (a ++ rest) false cur acc = parseCSVLineAux rest false (cur ++ a) acc := by
  induction a generalizing cur with
  | nil => simp
  | cons c a ih =>
    have hc := ha c (by simp)
    rw [List.cons_append, scanStep_other c hc.1 hc.2,
      ih (fun x hx => ha x (by simp [hx]))]
    simp

/-- Inside quotes, the quote-doubled image of a run is appended verbatim
up to the closing quote, provided the text after the closing quote does
not start with another quote. -/
theorem parseCSVLineAux_quoted (s : List Char) (rest : List Char)
    (hrest : ∀ c, rest.head? = some c → c ≠ '"')
    (cur : List Char) (acc : List (List Char)) :
    parseCSVLineAux (doubleQuotes s ++ '"' :: rest) true cur acc =
      parseCSVLineAux rest false (cur ++ s) acc := by
  induction s generalizing cur with
  | nil =>
    simp only [doubleQuotes, List.foldr_nil, List.nil_append]
    rw [scanStep_close rest hrest]
    simp
  | cons c s ih =>
    by_cases hc : c = '"'
    · subst hc
      have hd : doubleQuotes ('"' :: s) = '"' :: '"' :: doubleQuotes s := by
        simp [doubleQuotes]
      rw [hd, List.cons_append, List.cons_append, scanStep_escq, ih]
      simp
    · have hd : doubleQuotes (c :: s) = c :: doubleQuotes s := by
        simp [doubleQuotes, hc]
      rw [hd, List.cons_append, scanStep_inq c hc, ih]
      simp

end Idp

namespace Idp

/-! ## Lemmas about line splitting, trimming and joining -/

/-- A split result is never the empty list of segments. -/
theorem splitOnChar_ne_nil (sep : Char) : ∀ l : List Char, splitOnChar sep l ≠ []
  | [] => by simp [splitOnChar]
  | c :: cs => by
    simp only [splitOnChar]
    match h : splitOnChar sep cs with
    | [] => simp
    | hh :: t => by_cases hc : c = sep <;> simp [hc]

/-- Splitting after a separator-free prefix. -/
theorem splitOnChar_append (sep : Char) (a : List Char) (ha : sep ∉ a) (b : List Char) :
    splitOnChar sep (a ++ sep :: b) = a :: splitOnChar sep b := by
  induction a with
  | nil =>
    simp only [List.nil_append, splitOnChar]
    obtain ⟨hh, t, heq⟩ := List.exists_cons_of_ne_nil (splitOnChar_ne_nil sep b)
    rw [heq]
    simp
  | cons c a ih =>
    have hc : c ≠ sep := by rintro rfl; exact ha (by simp)
    have ha' : sep ∉ a := fun h => ha (by simp [h])
    simp only [List.cons_append, splitOnChar, List.append_eq]
    rw [ih ha']
    simp [hc]

/-- A separator-free text splits into itself. -/
theorem splitOnChar_no_sep (sep : Char) (a : List Char) (ha : sep ∉ a) :
    splitOnChar sep a = [a] := by
  induction a with
  | nil => rfl
  | cons c a ih =>
    have hc : c ≠ sep := by rintro rfl; exact ha (by simp)
    have ha' : sep ∉ a := fun h => ha (by simp [h])
    simp only [splitOnChar, ih ha']
    simp [hc]

/-- Splitting inverts joining for separator-free lines. -/
theorem splitOnChar_joinSep (sep : Char) :
    ∀ ls : List (List Char), ls ≠ [] → (∀ l ∈ ls, sep ∉ l) →
      splitOnChar sep (joinSep sep ls) = ls
  | [], h, _ => absurd rfl h
  | [l], _, hl => by
    simp only [joinSep]
    exact splitOnChar_no_sep sep l (hl l (by simp))
  | l :: l2 :: ls, _, hl => by
    simp only [joinSep]
    rw [splitOnChar_append sep l (hl l (by simp))]
    rw [splitOnChar_joinSep sep (l2 :: ls) (by simp) (fun x hx => hl x (by simp [hx]))]

/-- An element that fails the predicate survives `dropWhile`. -/
theorem mem_dropWhile_of_neg {p : Char → Bool} {c : Char} (hc : p c = false) :
    ∀ l : List Char, c ∈ l → c ∈ l.dropWhile p
  | a :: l, hm => by
    by_cases hp : p a = true
    · simp only [List.dropWhile, hp]
      rcases List.mem_cons.mp hm with rfl | h
      · rw [hp] at hc; cases hc
      · exact mem_dropWhile_of_neg hc l h
    · simp only [List.dropWhile, Bool.not_eq_true] at hp ⊢
      rw [hp]
      exact hm

/-- A line holding a non-whitespace character is not blank after trim. -/
theorem trimJS_ne_nil (l : List Char) (c : Char) (hc : c ∈ l) (hw : isWSJS c = false) :
    trimJS l ≠ [] := by
  unfold trimJS
  intro h
  have h1 : c ∈ l.dropWhile isWSJS := mem_dropWhile_of_neg hw l hc
  have h2 : c ∈ (l.dropWhile isWSJS).reverse := by simpa using h1
  have h3 : c ∈ ((l.dropWhile isWSJS).reverse.dropWhile isWSJS) :=
    mem_dropWhile_of_neg hw _ h2
  rw [List.reverse_eq_nil_iff] at h
  simp [h] at h3

/-! ## The shape of one encoded tabular row -/

/-- Scanning one encoded row produces exactly the three written fields. -/
theorem parseCSVLine_row (a j p : List Char) (ha : ∀ c ∈ a, c ≠ '"' ∧ c ≠ ',') :
    parseCSVLine (a ++ (',' :: '"' ::
      (doubleQuotes j ++ ('"' :: ',' :: '"' :: (doubleQuotes p ++ ['"']))))) = [a, j, p] := by
  unfold parseCSVLine
  rw [parseCSVLineAux_plain a ha]
  simp only [List.nil_append]
  rw [scanStep_comma]
  rw [scanStep_open]
  rw [parseCSVLineAux_quoted j _ (by intro c h; simp at h; subst h; decide)]
  simp only [List.nil_append]
  rw [scanStep_comma]
  rw [scanStep_open]
  rw [parseCSVLineAux_quoted p _ (by intro c h; simp at h)]
  simp [parseCSVLineAux]

end Idp

namespace Idp

/-! ## Digits: printing and reparsing decimal naturals -/

theorem digitChar_toNat : ∀ n, n < 10 → (Nat.digitChar n).toNat = 48 + n := by decide

theorem digitChar_isDigit : ∀ n, n < 10 → (Nat.digitChar n).isDigit = true := by decide

theorem digitChar_ne_zero : ∀ n, n < 10 → 0 < n → Nat.digitChar n ≠ '0' := by decide

theorem hexVal_digitChar : ∀ m, m < 16 → hexVal (Nat.digitChar m) = some m := by decide

theorem natToCharsF_all_digits :
    ∀ f n, n < f → ∀ c ∈ natToCharsF f n, c.isDigit = true := by
  intro f
  induction f with
  | zero => omega
  | succ f ih =>
    intro n hn c hc
    by_cases h10 : n < 10
    · simp only [natToCharsF, if_pos h10] at hc
      simp only [List.mem_singleton] at hc
      subst hc
      exact digitChar_isDigit n h10
    · simp only [natToCharsF, if_neg h10] at hc
      rcases List.mem_append.mp hc with h | h
      · exact ih (n / 10) (by omega) c h
      · simp only [List.mem_singleton] at h
        subst h
        exact digitChar_isDigit _ (Nat.mod_lt _ (by omega))

theorem natToCharsF_ne_nil : ∀ f n, n < f → natToCharsF f n ≠ [] := by
  intro f
  induction f with
  | zero => omega
  | succ f _ =>
    intro n hn
    by_cases h10 : n < 10 <;> simp [natToCharsF, h10]

theorem digitsToNat_append_digit (l : List Char) (d : Char) :
    digitsToNat (l ++ [d]) = 10 * digitsToNat l + (d.toNat - 48) := by
  simp [digitsToNat, List.foldl_append]

theorem digitsToNat_natToCharsF :
    ∀ f n, n < f → digitsToNat (natToCharsF f n) = n := by
  intro f
  induction f with
  | zero => omega
  | succ f ih =>
    intro n hn
    by_cases h10 : n < 10
    · simp only [natToCharsF, if_pos h10]
      simp [digitsToNat, digitChar_toNat n h10]
    · simp only [natToCharsF, if_neg h10]
      rw [digitsToNat_append_digit, ih (n / 10) (by omega),
        digitChar_toNat (n % 10) (Nat.mod_lt _ (by omega))]
      omega

theorem natToCharsF_head_ne_zero :
    ∀ f n, n < f → 0 < n → ∀ l, natToCharsF f n = '0' :: l → False := by
  intro f
  induction f with
  | zero => omega
  | succ f ih =>
    intro n hn hpos l heq
    by_cases h10 : n < 10
    · simp only [natToCharsF, if_pos h10] at heq
      have hne := digitChar_ne_zero n h10 hpos
      injection heq with h1 h2
      exact hne h1
    · simp only [natToCharsF, if_neg h10] at heq
      obtain ⟨c, t, hct⟩ := List.exists_cons_of_ne_nil (natToCharsF_ne_nil f (n / 10) (by omega))
      rw [hct, List.cons_append] at heq
      injection heq with h1 h2
      subst h1
      exact ih (n / 10) (by omega) (by omega) t hct

/-! ## Spans: `takeWhile` / `dropWhile` over an exact prefix -/

theorem takeWhile_append_all {p : Char → Bool} :
    ∀ l : List Char, (∀ c ∈ l, p c = true) →
    ∀ rest : List Char, (∀ c, rest.head? = some c → p c = false) →
      (l ++ rest).takeWhile p = l ∧ (l ++ rest).dropWhile p = rest := by
  intro l
  induction l with
  | nil =>
    intro _ rest hr
    cases rest with
    | nil => simp
    | cons c rest2 =>
      have := hr c rfl
      simp [List.takeWhile, List.dropWhile, this]
  | cons a l ih =>
    intro hl rest hr
    have ha := hl a (by simp)
    have := ih (fun c hc => hl c (by simp [hc])) rest hr
    simp [List.takeWhile, List.dropWhile, ha, this.1, this.2]

/-! ## Reparsing printed numbers -/

theorem parseNatNum_natToChars (n : Nat) (rest : List Char)
    (hrest : ∀ c, rest.head? = some c → c.isDigit = false) :
    parseNatNum (natToChars n ++ rest) = some (n, rest) := by
  have hall : ∀ c ∈ natToChars n, c.isDigit = true :=
    fun c hc => natToCharsF_all_digits (n + 1) n (by omega) c hc
  have hspan := takeWhile_append_all (natToChars n) hall rest hrest
  have hval : digitsToNat (natToChars n) = n := digitsToNat_natToCharsF (n + 1) n (by omega)
  unfold parseNatNum
  rw [hspan.1, hspan.2]
  rcases hshape : natToChars n with _ | ⟨d, t⟩
  · exact absurd hshape (natToCharsF_ne_nil (n + 1) n (by omega))
  · rw [hshape] at hval
    cases t with
    | nil =>
      simp only [digitsToNat, List.foldl_cons, List.foldl_nil, Nat.mul_zero, Nat.zero_add] at hval
      have h48 : '0'.toNat = 48 := rfl
      rw [h48] at hval
      simp [hval]
    | cons d2 t2 =>
      have hd0 : d ≠ '0' := by
        intro h
        subst h
        have hpos : 0 < n := by
          rcases Nat.eq_zero_or_pos n with rfl | h
          · rw [show natToChars 0 = ['0'] from rfl] at hshape
            injection hshape with h1 h2
            simp at h2
          · exact h
        exact natToCharsF_head_ne_zero (n + 1) n (by omega) hpos _ hshape
      simp [hd0, hval]

end Idp

namespace Idp

/-! ## Reparsing escaped JSON strings -/

theorem pjsb_close (rest : List Char) :
    parseJStringBody ('"' :: rest) = some ([], rest) := by
  rw [parseJStringBody.eq_def]
  simp

theorem pjsb_esc_quote (rest : List Char) :
    parseJStringBody ('\\' :: '"' :: rest) =
      (parseJStringBody rest).map fun p => ('"' :: p.1, p.2) := by
  rw [parseJStringBody.eq_def]
  simp

theorem pjsb_esc_bs (rest : List Char) :
    parseJStringBody ('\\' :: '\\' :: rest) =
      (parseJStringBody rest).map fun p => ('\\' :: p.1, p.2) := by
  rw [parseJStringBody.eq_def]
  simp

theorem pjsb_esc_b (rest : List Char) :
    parseJStringBody ('\\' :: 'b' :: rest) =
      (parseJStringBody rest).map fun p => ('\x08' :: p.1, p.2) := by
  rw [parseJStringBody.eq_def]
  simp

theorem pjsb_esc_t (rest : List Char) :
    parseJStringBody ('\\' :: 't' :: rest) =
      (parseJStringBody rest).map fun p => ('\t' :: p.1, p.2) := by
  rw [parseJStringBody.eq_def]
  simp

theorem pjsb_esc_n (rest : List Char) :
    parseJStringBody ('\\' :: 'n' :: rest) =
      (parseJStringBody rest).map fun p => ('\n' :: p.1, p.2) := by
  rw [parseJStringBody.eq_def]
  simp

theorem pjsb_esc_f (rest : List Char) :
    parseJStringBody ('\\' :: 'f' :: rest) =
      (parseJStringBody rest).map fun p => ('\x0c' :: p.1, p.2) := by
  rw [parseJStringBody.eq_def]
  simp

theorem pjsb_esc_r (rest : List Char) :
    parseJStringBody ('\\' :: 'r' :: rest) =
      (parseJStringBody rest).map fun p => ('\r' :: p.1, p.2) := by
  rw [parseJStringBody.eq_def]
  simp

theorem pjsb_esc_u (h1 h2 h3 h4 : Char) (d1 d2 d3 d4 : Nat)
    (hv1 : hexVal h1 = some d1) (hv2 : hexVal h2 = some d2)
    (hv3 : hexVal h3 = some d3) (hv4 : hexVal h4 = some d4) (rest : List Char) :
    parseJStringBody ('\\' :: 'u' :: h1 :: h2 :: h3 :: h4 :: rest) =
      (parseJStringBody rest).map fun p =>
        (Char.ofNat (((d1 * 16 + d2) * 16 + d3) * 16 + d4) :: p.1, p.2) := by
  rw [parseJStringBody.eq_def]
  simp [hv1, hv2, hv3, hv4]

theorem pjsb_other (c : Char) (h1 : c ≠ '"') (h2 : c ≠ '\\') (h3 : ¬ c.toNat < 32)
    (rest : List Char) :
    parseJStringBody (c :: rest) =
      (parseJStringBody rest).map fun p => (c :: p.1, p.2) := by
  rw [parseJStringBody.eq_def]
  simp [h1, h2, h3]

theorem parseJStringBody_escape :
    ∀ (s rest : List Char), parseJStringBody (escapeJ s ++ '"' :: rest) = some (s, rest) := by
  intro s
  induction s with
  | nil =>
    intro rest
    simp only [escapeJ, List.foldr_nil, List.nil_append]
    exact pjsb_close rest
  | cons c s ih =>
    intro rest
    rw [show escapeJ (c :: s) = escapeJChar c ++ escapeJ s from rfl, List.append_assoc]
    by_cases h1 : c = '"'
    · subst h1
      rw [show escapeJChar '"' = ['\\', '"'] from rfl]
      simp only [List.cons_append, List.nil_append]
      rw [pjsb_esc_quote, ih]
      rfl
    · by_cases h2 : c = '\\'
      · subst h2
        rw [show escapeJChar '\\' = ['\\', '\\'] from rfl]
        simp only [List.cons_append, List.nil_append]
        rw [pjsb_esc_bs, ih]
        rfl
      · by_cases h3 : c = '\x08'
        · subst h3
          rw [show escapeJChar '\x08' = ['\\', 'b'] from rfl]
          simp only [List.cons_append, List.nil_append]
          rw [pjsb_esc_b, ih]
          rfl
        · by_cases h4 : c = '\t'
          · subst h4
            rw [show escapeJChar '\t' = ['\\', 't'] from rfl]
            simp only [List.cons_append, List.nil_append]
            rw [pjsb_esc_t, ih]
            rfl
          · by_cases h5 : c = '\n'
            · subst h5
              rw [show escapeJChar '\n' = ['\\', 'n'] from rfl]
              simp only [List.cons_append, List.nil_append]
              rw [pjsb_esc_n, ih]
              rfl
            · by_cases h6 : c = '\x0c'
              · subst h6
                rw [show escapeJChar '\x0c' = ['\\', 'f'] from rfl]
                simp only [List.cons_append, List.nil_append]
                rw [pjsb_esc_f, ih]
                rfl
              · by_cases h7 : c = '\r'
                · subst h7
                  rw [show escapeJChar '\r' = ['\\', 'r'] from rfl]
                  simp only [List.cons_append, List.nil_append]
                  rw [pjsb_esc_r, ih]
                  rfl
                · by_cases h8 : c.toNat < 32
                  · have hesc : escapeJChar c =
                        ['\\', 'u', '0', '0', Nat.digitChar (c.toNat / 16),
                          Nat.digitChar (c.toNat % 16)] := by
                      simp [escapeJChar, h1, h2, h3, h4, h5, h6, h7, h8]
                    rw [hesc]
                    simp only [List.cons_append, List.nil_append]
                    rw [pjsb_esc_u '0' '0' (Nat.digitChar (c.toNat / 16))
                      (Nat.digitChar (c.toNat % 16)) 0 0 (c.toNat / 16) (c.toNat % 16)
                      rfl rfl (hexVal_digitChar _ (by omega))
                      (hexVal_digitChar _ (Nat.mod_lt _ (by omega))), ih]
                    have hch : Char.ofNat (((0 * 16 + 0) * 16 + c.toNat / 16) * 16 + c.toNat % 16) = c := by
                      have : ((0 * 16 + 0) * 16 + c.toNat / 16) * 16 + c.toNat % 16 = c.toNat := by
                        omega
                      rw [this, Char.ofNat_toNat]
                    rw [hch]
                    rfl
                  · have hesc : escapeJChar c = [c] := by
                      simp [escapeJChar, h1, h2, h3, h4, h5, h6, h7, h8]
                    rw [hesc]
                    simp only [List.cons_append, List.nil_append]
                    rw [pjsb_other c h1 h2 h8, ih]
                    rfl

end Idp

namespace Idp

/-! ## Reparsing printed values -/

theorem skipWS_not_ws (c : Char) (hc : isJWS c = false) (cs : List Char) :
    skipWS (c :: cs) = c :: cs := by simp [skipWS, hc]

theorem digit_ne (c : Char) (h : c.isDigit = true) (d : Char) (hd : d.isDigit = false) :
    c ≠ d := by
  rintro rfl
  rw [h] at hd
  cases hd

theorem digit_not_ws (c : Char) (h : c.isDigit = true) : isJWS c = false := by
  have h1 : c ≠ ' ' := digit_ne c h ' ' (by decide)
  have h2 : c ≠ '\t' := digit_ne c h '\t' (by decide)
  have h3 : c ≠ '\n' := digit_ne c h '\n' (by decide)
  have h4 : c ≠ '\r' := digit_ne c h '\r' (by decide)
  simp [isJWS, h1, h2, h3, h4]

theorem parseValueF_lit_null (f : Nat) (rest : List Char) :
    parseValueF (f + 1) ('n' :: 'u' :: 'l' :: 'l' :: rest) = some (vNull, rest) := by
  simp only [parseValueF]
  rw [skipWS_not_ws 'n' (by decide)]
  simp [stripLit]

theorem parseValueF_lit_true (f : Nat) (rest : List Char) :
    parseValueF (f + 1) ('t' :: 'r' :: 'u' :: 'e' :: rest) = some (vBool true, rest) := by
  simp only [parseValueF]
  rw [skipWS_not_ws 't' (by decide)]
  simp [stripLit]

theorem parseValueF_lit_false (f : Nat) (rest : List Char) :
    parseValueF (f + 1) ('f' :: 'a' :: 'l' :: 's' :: 'e' :: rest) = some (vBool false, rest) := by
  simp only [parseValueF]
  rw [skipWS_not_ws 'f' (by decide)]
  simp [stripLit]

theorem parseValueF_str (f : Nat) (s rest : List Char) :
    parseValueF (f + 1) (jStrLit s ++ rest) = some (vStr s, rest) := by
  have h : jStrLit s ++ rest = '"' :: (escapeJ s ++ '"' :: rest) := by
    simp [jStrLit]
  rw [h]
  simp only [parseValueF]
  rw [skipWS_not_ws '"' (by decide)]
  simp [parseJStringBody_escape]

theorem parseValueF_num (f : Nat) (n : Int) (rest : List Char)
    (hrest : ∀ c, rest.head? = some c → c.isDigit = false) :
    parseValueF (f + 1) (intToChars n ++ rest) = some (vNum n, rest) := by
  by_cases hneg : n < 0
  · have h : intToChars n ++ rest = '-' :: (natToChars n.natAbs ++ rest) := by
      simp [intToChars, hneg]
    rw [h]
    simp only [parseValueF]
    rw [skipWS_not_ws '-' (by decide)]
    simp only [reduceIte, Char.reduceEq]
    rw [parseNatNum_natToChars n.natAbs rest hrest]
    simp
    rw [abs_of_neg hneg]
    ring
  · have hne : natToChars n.natAbs ≠ [] :=
      natToCharsF_ne_nil (n.natAbs + 1) n.natAbs (by omega)
    have hall : ∀ c ∈ natToChars n.natAbs, c.isDigit = true :=
      fun c hc => natToCharsF_all_digits (n.natAbs + 1) n.natAbs (by omega) c hc
    obtain ⟨d, t, hdt⟩ := List.exists_cons_of_ne_nil hne
    have hd : d.isDigit = true := by
      apply hall
      rw [hdt]
      simp
    have h : intToChars n ++ rest = d :: (t ++ rest) := by
      simp only [intToChars, if_neg hneg]
      rw [hdt]
      simp
    rw [h]
    simp only [parseValueF]
    rw [skipWS_not_ws d (digit_not_ws d hd)]
    simp only [if_neg (digit_ne d hd '"' (by decide)), if_neg (digit_ne d hd '[' (by decide)),
      if_neg (digit_ne d hd '{' (by decide)), if_neg (digit_ne d hd 'n' (by decide)),
      if_neg (digit_ne d hd 't' (by decide)), if_neg (digit_ne d hd 'f' (by decide)),
      if_neg (digit_ne d hd '-' (by decide)), hd, if_pos]
    rw [show d :: (t ++ rest) = natToChars n.natAbs ++ rest by
      rw [hdt]; simp]
    rw [parseNatNum_natToChars n.natAbs rest hrest]
    simp
    omega

end Idp

namespace Idp

/-- `JSON.stringify` succeeds on every primitive. -/
theorem jstr_prim_some (v : Value) (hv : isPrimV v = true) : ∃ t, jstr v = some t := by
  cases v with
  | vNull => exact ⟨_, rfl⟩
  | vBool b => cases b <;> exact ⟨_, rfl⟩
  | vNum n => exact ⟨_, rfl⟩
  | vStr s => exact ⟨_, rfl⟩
  | vUndef => simp [isPrimV] at hv
  | vList xs => simp [isPrimV] at hv
  | vMap kvs => simp [isPrimV] at hv

/-- Reparsing a printed primitive. -/
theorem parseValueF_prim (f : Nat) (v : Value) (hv : isPrimV v = true) (tv : List Char)
    (htv : jstr v = some tv) (rest : List Char)
    (hrest : ∀ c, rest.head? = some c → c.isDigit = false) :
    parseValueF (f + 1) (tv ++ rest) = some (v, rest) := by
  cases v with
  | vNull =>
    have ht : tv = 'n' :: 'u' :: 'l' :: ['l'] := by
      simp [jstr] at htv
      exact htv.symm
    subst ht
    simpa using parseValueF_lit_null f rest
  | vBool b =>
    cases b with
    | true =>
      have ht : tv = "true".data := by
        simp [jstr] at htv
        exact htv.symm
      subst ht
      simpa using parseValueF_lit_true f rest
    | false =>
      have ht : tv = "false".data := by
        simp [jstr] at htv
        exact htv.symm
      subst ht
      simpa using parseValueF_lit_false f rest
  | vNum n =>
    have ht : tv = intToChars n := by
      simp [jstr] at htv
      exact htv.symm
    subst ht
    exact parseValueF_num f n rest hrest
  | vStr s =>
    have ht : tv = jStrLit s := by
      simp [jstr] at htv
      exact htv.symm
    subst ht
    exact parseValueF_str f s rest
  | vUndef => simp [isPrimV] at hv
  | vList xs => simp [isPrimV] at hv
  | vMap kvs => simp [isPrimV] at hv

/-- For primitive-valued members, the printed members text is empty only
for the empty member list. -/
theorem jstrMembers_eq_nil_iff (kvs : List (List Char × Value))
    (hprim : ∀ kv ∈ kvs, isPrimV kv.2 = true) :
    jstrMembers kvs = [] ↔ kvs = [] := by
  cases kvs with
  | nil => simp [jstrMembers]
  | cons kv kvs =>
    obtain ⟨k, v⟩ := kv
    obtain ⟨tv, htv⟩ := jstr_prim_some v (hprim (k, v) (by simp))
    simp [jstrMembers, htv, jStrLit]

/-- Each primitive member contributes at least one character. -/
theorem jstrMembers_len_ge :
    ∀ kvs : List (List Char × Value), (∀ kv ∈ kvs, isPrimV kv.2 = true) →
      kvs.length ≤ (jstrMembers kvs).length := by
  intro kvs
  induction kvs with
  | nil => simp
  | cons kv kvs ih =>
    intro hprim
    obtain ⟨k, v⟩ := kv
    obtain ⟨tv, htv⟩ := jstr_prim_some v (hprim (k, v) (by simp))
    have ihh := ih fun x hx => hprim x (by simp [hx])
    by_cases hk : jstrMembers kvs = []
    · have : kvs = [] := (jstrMembers_eq_nil_iff kvs
        (fun x hx => hprim x (by simp [hx]))).mp hk
      subst this
      simp [jstrMembers, htv, jStrLit]
    · simp only [jstrMembers, htv, if_neg hk]
      simp [jStrLit]
      omega

/-- Reparsing printed members, one by one up to the closing brace. -/
theorem parseMembersW_jstr (f : Nat) :
    ∀ (kvs : List (List Char × Value)) (g : Nat) (rest : List Char),
      kvs ≠ [] → kvs.length ≤ g → (∀ kv ∈ kvs, isPrimV kv.2 = true) →
      parseMembersW (parseValueF (f + 1)) g (jstrMembers kvs ++ '}' :: rest) =
        some (kvs, rest) := by
  intro kvs
  induction kvs with
  | nil => intro g rest h; exact absurd rfl h
  | cons kv kvs ih =>
    intro g rest _ hg hprim
    obtain ⟨k, v⟩ := kv
    obtain ⟨tv, htv⟩ := jstr_prim_some v (hprim (k, v) (by simp))
    have hvp : isPrimV v = true := hprim (k, v) (by simp)
    obtain ⟨g', rfl⟩ : ∃ g', g = g' + 1 := ⟨g - 1, by simp at hg; omega⟩
    by_cases hk : kvs = []
    · subst hk
      have htext : jstrMembers [(k, v)] ++ '}' :: rest =
          '"' :: (escapeJ k ++ '"' :: (':' :: (tv ++ '}' :: rest))) := by
        simp [jstrMembers, htv, jStrLit]
      rw [htext]
      simp only [parseMembersW]
      rw [skipWS_not_ws '"' (by decide)]
      simp only []
      rw [parseJStringBody_escape]
      simp only []
      rw [skipWS_not_ws ':' (by decide)]
      simp only []
      rw [parseValueF_prim f v hvp tv htv ('}' :: rest)
        (by intro c h; injection h with h; subst h; decide)]
      simp only []
      rw [skipWS_not_ws '}' (by decide)]
      rfl
    · have hne : jstrMembers kvs ≠ [] :=
        fun h => hk ((jstrMembers_eq_nil_iff kvs (fun x hx => hprim x (by simp [hx]))).mp h)
      have htext : jstrMembers ((k, v) :: kvs) ++ '}' :: rest =
          '"' :: (escapeJ k ++ '"' :: (':' :: (tv ++ ',' :: (jstrMembers kvs ++ '}' :: rest)))) := by
        simp [jstrMembers, htv, if_neg hne, jStrLit]
      rw [htext]
      simp only [parseMembersW]
      rw [skipWS_not_ws '"' (by decide)]
      simp only []
      rw [parseJStringBody_escape]
      simp only []
      rw [skipWS_not_ws ':' (by decide)]
      simp only []
      rw [parseValueF_prim f v hvp tv htv (',' :: (jstrMembers kvs ++ '}' :: rest))
        (by intro c h; injection h with h; subst h; decide)]
      simp only []
      rw [skipWS_not_ws ',' (by decide)]
      simp only []
      rw [ih g' rest hk (by simp at hg ⊢; omega) (fun x hx => hprim x (by simp [hx]))]
      rfl

/-- Reparsing a printed flat map of primitives. -/
theorem parseValueF_flatMap (f : Nat) (kvs : List (List Char × Value))
    (hprim : ∀ kv ∈ kvs, isPrimV kv.2 = true) (rest : List Char) :
    parseValueF (f + 2) (('{' :: jstrMembers kvs ++ ['}']) ++ rest) =
      some (vMap kvs, rest) := by
  have htext : ('{' :: jstrMembers kvs ++ ['}']) ++ rest =
      '{' :: (jstrMembers kvs ++ '}' :: rest) := by simp
  rw [htext]
  simp only [parseValueF]
  rw [skipWS_not_ws '{' (by decide)]
  simp only [reduceIte, Char.reduceEq]
  cases kvs with
  | nil =>
    simp only [jstrMembers, List.nil_append]
    rw [skipWS_not_ws '}' (by decide)]
    rfl
  | cons kv kvs' =>
    obtain ⟨k, v⟩ := kv
    obtain ⟨tv, htv⟩ := jstr_prim_some v (hprim (k, v) (by simp))
    have hshape : ∃ t, jstrMembers ((k, v) :: kvs') = '"' :: t :=
      ⟨escapeJ k ++ '"' :: ':' ::
        (tv ++ (if jstrMembers kvs' = [] then [] else ',' :: jstrMembers kvs')), by
          simp [jstrMembers, htv, jStrLit]⟩
    obtain ⟨t, ht⟩ := hshape
    have hlen : ((k, v) :: kvs').length ≤ ('"' :: (t ++ '}' :: rest)).length + 1 := by
      have h1 := jstrMembers_len_ge ((k, v) :: kvs') hprim
      rw [ht] at h1
      simp at h1 ⊢
      omega
    rw [show jstrMembers ((k, v) :: kvs') ++ '}' :: rest = '"' :: (t ++ '}' :: rest) by
      rw [ht]; simp]
    rw [show skipWS ('"' :: (t ++ '}' :: rest)) = '"' :: (t ++ '}' :: rest) from
      skipWS_not_ws '"' (by decide) _]
    show Option.map (fun p => (vMap p.1, p.2))
      (parseMembersW (parseValueF (f + 1)) (('"' :: (t ++ '}' :: rest)).length + 1)
        ('"' :: (t ++ '}' :: rest))) = some (vMap ((k, v) :: kvs'), rest)
    rw [show ('"' :: (t ++ '}' :: rest)) = jstrMembers ((k, v) :: kvs') ++ '}' :: rest by
      rw [ht]; simp]
    rw [parseMembersW_jstr f ((k, v) :: kvs') _ rest (by simp)
      (by
        rw [ht]
        simpa using hlen) hprim]
    rfl

end Idp

namespace Idp

/-- `JSON.parse` inverts `JSON.stringify` on the restricted output
class: strings, numbers, booleans and flat maps of primitives. -/
theorem jsonParse_jstr (v : Value) (hv : restrictedOut v = true) (t : List Char)
    (ht : jstr v = some t) : jsonParse t = some v := by
  unfold jsonParse
  cases v with
  | vStr s =>
    have h : t = jStrLit s := by
      simp [jstr] at ht
      exact ht.symm
    subst h
    have key := parseValueF_str ((jStrLit s).length) s []
    rw [List.append_nil] at key
    rw [key]
    simp [skipWS]
  | vNum n =>
    have h : t = intToChars n := by
      simp [jstr] at ht
      exact ht.symm
    subst h
    have key := parseValueF_num ((intToChars n).length) n [] (by intro c h; simp at h)
    rw [List.append_nil] at key
    rw [key]
    simp [skipWS]
  | vBool b =>
    cases b with
    | true =>
      have h : t = "true".data := by
        simp [jstr] at ht
        exact ht.symm
      subst h
      have key := parseValueF_lit_true ("true".data.length) []
      rw [show ('t' :: 'r' :: 'u' :: 'e' :: ([] : List Char)) = "true".data from rfl] at key
      rw [key]
      simp [skipWS]
    | false =>
      have h : t = "false".data := by
        simp [jstr] at ht
        exact ht.symm
      subst h
      have key := parseValueF_lit_false ("false".data.length) []
      rw [show ('f' :: 'a' :: 'l' :: 's' :: 'e' :: ([] : List Char)) = "false".data from rfl] at key
      rw [key]
      simp [skipWS]
  | vMap kvs =>
    have hv' : kvs.all (fun kv => isPrimV kv.2) = true := hv
    have hprim : ∀ kv ∈ kvs, isPrimV kv.2 = true := by
      intro kv hkv
      exact List.all_eq_true.mp hv' kv hkv
    have h : t = '{' :: jstrMembers kvs ++ ['}'] := by
      simp [jstr] at ht
      exact ht.symm
    subst h
    have hlen : ('{' :: jstrMembers kvs ++ ['}']).length + 1 =
        (('{' :: jstrMembers kvs ++ ['}']).length - 1) + 2 := by
      simp
    rw [hlen]
    have key := parseValueF_flatMap (('{' :: jstrMembers kvs ++ ['}']).length - 1) kvs hprim []
    rw [List.append_nil] at key
    rw [key]
    simp [skipWS]
  | vNull => simp [restrictedOut] at hv
  | vUndef => simp [restrictedOut] at hv
  | vList xs => simp [restrictedOut] at hv

/-! ## The printed JSON of a restricted value contains no newline -/

theorem digitChar_ne_nl : ∀ m, m < 16 → Nat.digitChar m ≠ '\n' := by decide

theorem escapeJChar_no_nl (c : Char) : '\n' ∉ escapeJChar c := by
  unfold escapeJChar
  by_cases h1 : c = '"'
  · simp [h1]
  · by_cases h2 : c = '\\'
    · simp [h1, h2]
    · by_cases h3 : c = '\x08'
      · simp [h1, h2, h3]
      · by_cases h4 : c = '\t'
        · simp [h1, h2, h3, h4]
        · by_cases h5 : c = '\n'
          · simp [h1, h2, h3, h4, h5]
          · by_cases h6 : c = '\x0c'
            · simp [h1, h2, h3, h4, h5, h6]
            · by_cases h7 : c = '\r'
              · simp [h1, h2, h3, h4, h5, h6, h7]
              · by_cases h8 : c.toNat < 32
                · simp only [h1, h2, h3, h4, h5, h6, h7, h8, if_neg, if_pos, reduceIte]
                  intro hm
                  rcases List.mem_cons.mp hm with h | hm
                  · exact absurd h (by decide)
                  rcases List.mem_cons.mp hm with h | hm
                  · exact absurd h (by decide)
                  rcases List.mem_cons.mp hm with h | hm
                  · exact absurd h (by decide)
                  rcases List.mem_cons.mp hm with h | hm
                  · exact absurd h (by decide)
                  rcases List.mem_cons.mp hm with h | hm
                  · exact digitChar_ne_nl _ (by omega) h.symm
                  rcases List.mem_cons.mp hm with h | hm
                  · exact digitChar_ne_nl _ (Nat.mod_lt _ (by omega)) h.symm
                  simp at hm
                · simp only [h1, h2, h3, h4, h5, h6, h7, h8, if_neg, reduceIte]
                  intro hm
                  simp at hm
                  exact h5 hm.symm

theorem escapeJ_no_nl (s : List Char) : '\n' ∉ escapeJ s := by
  induction s with
  | nil => simp [escapeJ]
  | cons c s ih =>
    rw [show escapeJ (c :: s) = escapeJChar c ++ escapeJ s from rfl]
    intro hm
    rcases List.mem_append.mp hm with h | h
    · exact escapeJChar_no_nl c h
    · exact ih h

theorem intToChars_no_nl (n : Int) : '\n' ∉ intToChars n := by
  have hdig : ∀ c ∈ natToChars n.natAbs, c.isDigit = true :=
    fun c hc => natToCharsF_all_digits (n.natAbs + 1) n.natAbs (by omega) c hc
  unfold intToChars
  by_cases h : n < 0
  · simp only [h, if_pos, reduceIte]
    intro hm
    rcases List.mem_cons.mp hm with hh | hh
    · exact absurd hh.symm (by decide)
    · exact digit_ne '\n' (hdig '\n' hh) '\n' (by decide) rfl
  · simp only [h, if_neg, reduceIte]
    intro hm
    exact digit_ne '\n' (hdig '\n' hm) '\n' (by decide) rfl

theorem jStrLit_no_nl (s : List Char) : '\n' ∉ jStrLit s := by
  intro hm
  have h : '\n' ∈ escapeJ s := by simpa [jStrLit] using hm
  exact escapeJ_no_nl s h

theorem jstr_prim_no_nl (v : Value) (hp : isPrimV v = true) (t : List Char)
    (ht : jstr v = some t) : '\n' ∉ t := by
  cases v with
  | vNull =>
    have h : t = 'n' :: 'u' :: 'l' :: ['l'] := by
      simp [jstr] at ht; exact ht.symm
    subst h; decide
  | vBool b =>
    cases b with
    | true =>
      have h : t = "true".data := by simp [jstr] at ht; exact ht.symm
      subst h; decide
    | false =>
      have h : t = "false".data := by simp [jstr] at ht; exact ht.symm
      subst h; decide
  | vNum n =>
    have h : t = intToChars n := by simp [jstr] at ht; exact ht.symm
    subst h; exact intToChars_no_nl n
  | vStr s =>
    have h : t = jStrLit s := by simp [jstr] at ht; exact ht.symm
    subst h; exact jStrLit_no_nl s
  | vUndef => simp [isPrimV] at hp
  | vList xs => simp [isPrimV] at hp
  | vMap kvs => simp [isPrimV] at hp

theorem jstrMembers_no_nl :
    ∀ kvs : List (List Char × Value), (∀ kv ∈ kvs, isPrimV kv.2 = true) →
      '\n' ∉ jstrMembers kvs := by
  intro kvs
  induction kvs with
  | nil => simp [jstrMembers]
  | cons kv kvs ih =>
    intro hprim
    obtain ⟨k, v⟩ := kv
    obtain ⟨tv, htv⟩ := jstr_prim_some v (hprim (k, v) (by simp))
    have hrec := ih fun x hx => hprim x (by simp [hx])
    simp only [jstrMembers, htv]
    intro hm
    have hdis : '\n' ∈ jStrLit k ∨ '\n' ∈ tv ∨ '\n' ∈ jstrMembers kvs := by
      by_cases hk : jstrMembers kvs = [] <;> simp [hk] at hm <;> tauto
    rcases hdis with h | h | h
    · exact jStrLit_no_nl k h
    · exact jstr_prim_no_nl v (hprim (k, v) (by simp)) tv htv h
    · exact hrec h

theorem jstr_no_nl (v : Value) (hv : restrictedOut v = true) (t : List Char)
    (ht : jstr v = some t) : '\n' ∉ t := by
  cases v with
  | vMap kvs =>
    have hv' : kvs.all (fun kv => isPrimV kv.2) = true := hv
    have hprim : ∀ kv ∈ kvs, isPrimV kv.2 = true := by
      intro kv hkv
      exact List.all_eq_true.mp hv' kv hkv
    have h : t = '{' :: jstrMembers kvs ++ ['}'] := by
      simp [jstr] at ht; exact ht.symm
    subst h
    intro hm
    have hdis : '\n' ∈ jstrMembers kvs := by simpa using hm
    exact jstrMembers_no_nl kvs hprim hdis
  | vStr s => exact jstr_prim_no_nl (vStr s) rfl t ht
  | vNum n => exact jstr_prim_no_nl (vNum n) rfl t ht
  | vBool b => exact jstr_prim_no_nl (vBool b) rfl t ht
  | vNull => simp [restrictedOut] at hv
  | vUndef => simp [restrictedOut] at hv
  | vList xs => simp [restrictedOut] at hv

theorem doubleQuotes_no_nl (s : List Char) (hs : '\n' ∉ s) : '\n' ∉ doubleQuotes s := by
  induction s with
  | nil => simp [doubleQuotes]
  | cons c s ih =>
    have hc : c ≠ '\n' := fun h => hs (by simp [h])
    have hrec := ih fun h => hs (by simp [h])
    by_cases hq : c = '"'
    · subst hq
      rw [show doubleQuotes ('"' :: s) = '"' :: '"' :: doubleQuotes s by simp [doubleQuotes]]
      intro hm
      rcases List.mem_cons.mp hm with h | h
      · exact absurd h.symm (by decide)
      · rcases List.mem_cons.mp h with h2 | h2
        · exact absurd h2.symm (by decide)
        · exact hrec h2
    · rw [show doubleQuotes (c :: s) = c :: doubleQuotes s by simp [doubleQuotes, hq]]
      intro hm
      rcases List.mem_cons.mp hm with h | h
      · exact hc h.symm
      · exact hrec h

end Idp

namespace Idp

/-! ## The Content Summarizer yields a string on the restricted class -/

/-- A primitive is not an object. -/
theorem prim_not_obj (v : Value) (h : isPrimV v = true) : isObjNonNull v = false := by
  cases v <;> simp_all [isPrimV, isObjNonNull]

/-- Property read on a non-object (and non-array) is undefined. -/
theorem getProp_nonobj (v : Value) (h : isObjNonNull v = false) (k : List Char) :
    v.getProp k = vUndef := by
  cases v <;> simp_all [Value.getProp, Value.objEntries, isObjNonNull]

/-- Property read on a map of primitives gives a primitive or undefined. -/
theorem getProp_map_prim (kvs : List (List Char × Value))
    (hprim : ∀ kv ∈ kvs, isPrimV kv.2 = true) (k : List Char) :
    isPrimV ((vMap kvs).getProp k) = true ∨ (vMap kvs).getProp k = vUndef := by
  unfold Value.getProp
  cases hf : (Value.objEntries (vMap kvs)).find? fun p => p.1 = k with
  | none => right; rfl
  | some p =>
    left
    have hm : p ∈ kvs := by
      have := List.mem_of_find?_eq_some hf
      simpa [Value.objEntries] using this
    exact hprim p hm

/-- The first-string-field search only ever returns a string. -/
theorem findSome?_textfield_shape (out : Value) :
    ∀ (fields : List (List Char)) (u : Value),
      (fields.findSome? fun k =>
        match out.getProp k with
        | vStr s => if s ≠ [] then some (vStr s) else none
        | _ => none) = some u → ∃ s, u = vStr s := by
  intro fields
  induction fields with
  | nil => intro u h; simp at h
  | cons k fields ih =>
    intro u h
    rw [List.findSome?_cons] at h
    cases hg : out.getProp k with
    | vStr s =>
      rw [hg] at h
      rw [show (match vStr s with
          | vStr s => if s ≠ [] then some (vStr s) else none
          | _ => none) = if s ≠ [] then some (vStr s) else none from rfl] at h
      by_cases hs : s ≠ []
      · rw [if_pos hs] at h
        simp at h
        exact ⟨s, h.symm⟩
      · rw [if_neg hs] at h
        exact ih u (by simpa using h)
    | vNull => rw [hg] at h; exact ih u (by simpa using h)
    | vUndef => rw [hg] at h; exact ih u (by simpa using h)
    | vBool b => rw [hg] at h; exact ih u (by simpa using h)
    | vNum n => rw [hg] at h; exact ih u (by simpa using h)
    | vList xs => rw [hg] at h; exact ih u (by simpa using h)
    | vMap m => rw [hg] at h; exact ih u (by simpa using h)

/-- On the restricted output class the summarizer returns a string. -/
theorem extract_restricted (a : List Char) (out : Value) (h : restrictedOut out = true) :
    ∃ s, extractPrimaryContent ⟨a, out⟩ = vStr s := by
  cases out with
  | vStr s => exact ⟨s, rfl⟩
  | vNum n => exact ⟨_, rfl⟩
  | vBool b => exact ⟨_, rfl⟩
  | vNull => simp [restrictedOut] at h
  | vUndef => simp [restrictedOut] at h
  | vList xs => simp [restrictedOut] at h
  | vMap kvs =>
    have hv' : kvs.all (fun kv => isPrimV kv.2) = true := h
    have hprim : ∀ kv ∈ kvs, isPrimV kv.2 = true := by
      intro kv hkv
      exact List.all_eq_true.mp hv' kv hkv
    show ∃ s, extractFromObject a (vMap kvs) = vStr s
    unfold extractFromObject
    have htr : ((vMap kvs).getProp "transcription".data).getProp "text".data = vUndef := by
      rcases getProp_map_prim kvs hprim "transcription".data with hp | hp
      · exact getProp_nonobj _ (prim_not_obj _ hp) _
      · rw [hp]
        exact getProp_nonobj vUndef rfl _
    have haud : ¬(a = "audio".data ∧
        ((vMap kvs).getProp "transcription".data).truthy = true ∧
        (((vMap kvs).getProp "transcription".data).getProp "text".data).truthy = true) := by
      rintro ⟨_, _, h3⟩
      rw [htr] at h3
      simp [Value.truthy] at h3
    rw [if_neg haud]
    have hgeneral : ∃ s,
        (match (epcFields.findSome? fun k =>
          match (vMap kvs).getProp k with
          | vStr s => if s ≠ [] then some (vStr s) else none
          | _ => none) with
        | some v => v
        | none =>
          let tc := findTextContentF 3 (vMap kvs)
          if tc ≠ [] then vStr tc else vStr (placeholderText (vMap kvs))) = vStr s := by
      cases hfs : (epcFields.findSome? fun k =>
          match (vMap kvs).getProp k with
          | vStr s => if s ≠ [] then some (vStr s) else none
          | _ => none) with
      | some u =>
        obtain ⟨s, rfl⟩ := findSome?_textfield_shape (vMap kvs) epcFields u hfs
        exact ⟨s, rfl⟩
      | none =>
        by_cases htc : findTextContentF 3 (vMap kvs) ≠ []
        · exact ⟨findTextContentF 3 (vMap kvs), by rw [if_pos htc]⟩
        · exact ⟨placeholderText (vMap kvs), by rw [if_neg htc]⟩
    rcases getProp_map_prim kvs hprim "analysis".data with hp | hp
    · cases han : (vMap kvs).getProp "analysis".data with
      | vStr s =>
        by_cases hs : s = []
        · subst hs
          simp [Value.truthy]
          simpa using hgeneral
        · simp [Value.truthy, Value.isStrType, hs]
      | vNull =>
        simp [Value.truthy]
        simpa using hgeneral
      | vUndef =>
        simp [Value.truthy]
        simpa using hgeneral
      | vBool b =>
        cases b with
        | false =>
          simp [Value.truthy]
          simpa using hgeneral
        | true =>
          simp [Value.truthy, Value.isStrType, Value.getProp, Value.objEntries]
          simpa using hgeneral
      | vNum n =>
        by_cases hn : n = 0
        · subst hn
          simp [Value.truthy]
          simpa using hgeneral
        · simp [Value.truthy, Value.isStrType, Value.getProp, Value.objEntries, hn]
          simpa using hgeneral
      | vList xs => rw [han] at hp; simp [isPrimV] at hp
      | vMap m => rw [han] at hp; simp [isPrimV] at hp
    · rw [hp]
      simp [Value.truthy]
      simpa using hgeneral

end Idp

namespace Idp

/-! ## One encoded row: production and reparsing -/

theorem jstr_restricted_some (v : Value) (hv : restrictedOut v = true) :
    ∃ t, jstr v = some t := by
  cases v with
  | vMap kvs => exact ⟨_, rfl⟩
  | vStr s => exact ⟨_, rfl⟩
  | vNum n => exact ⟨_, rfl⟩
  | vBool b => cases b <;> exact ⟨_, rfl⟩
  | vNull => simp [restrictedOut] at hv
  | vUndef => simp [restrictedOut] at hv
  | vList xs => simp [restrictedOut] at hv

theorem csvRow_eq (r : Record) (hout : restrictedOut r.output = true) :
    csvRow r = some (csvRowText r) := by
  obtain ⟨a, out⟩ := r
  obtain ⟨t, ht⟩ := jstr_restricted_some out hout
  obtain ⟨p, hp⟩ := extract_restricted a out hout
  unfold csvRow csvRowText csvRowTextOf
  simp only [ht, hp, toStringE, Option.getD_some, Option.bind_eq_bind, Option.some_bind]
  simp

theorem noDelims_spec (a : List Char) (h : noDelims a = true) :
    ∀ c ∈ a, c ≠ ',' ∧ c ≠ '"' ∧ c ≠ '\n' := by
  intro c hc
  have := List.all_eq_true.mp h c hc
  simpa using this

theorem parseCSVRow_rowText (r : Record) (hout : restrictedOut r.output = true)
    (hagent : noDelims r.agent_type = true) :
    parseCSVRow true (csvRowText r) = some r := by
  obtain ⟨a, out⟩ := r
  obtain ⟨t, ht⟩ := jstr_restricted_some out hout
  obtain ⟨p, hp⟩ := extract_restricted a out hout
  have ha : ∀ c ∈ a, c ≠ '"' ∧ c ≠ ',' := by
    intro c hc
    have := noDelims_spec a hagent c hc
    exact ⟨this.2.1, this.1⟩
  have hfields : parseCSVLine (csvRowText ⟨a, out⟩) = [a, t, p] := by
    unfold csvRowText csvRowTextOf
    simp only [ht, hp, toStringE, Option.getD_some]
    exact parseCSVLine_row a t p ha
  unfold parseCSVRow
  rw [hfields]
  simp [jsonParse_jstr out hout t ht]

/-! ## Whole-dataset encode/decode assembly -/

theorem mapM_csvRow (l : List Record) (h : ∀ r ∈ l, restrictedOut r.output = true) :
    l.mapM csvRow = some (l.map csvRowText) := by
  induction l with
  | nil => rfl
  | cons r l ih =>
    rw [List.map_cons, List.mapM_cons, csvRow_eq r (h r (by simp)),
      ih fun x hx => h x (by simp [hx])]
    rfl

theorem filterMap_rows (l : List Record)
    (h : ∀ r ∈ l, restrictedOut r.output = true ∧ noDelims r.agent_type = true) :
    (l.map csvRowText).filterMap (parseCSVRow true) = l := by
  induction l with
  | nil => rfl
  | cons r l ih =>
    rw [List.map_cons, List.filterMap_cons,
      parseCSVRow_rowText r (h r (by simp)).1 (h r (by simp)).2,
      ih fun x hx => h x (by simp [hx])]

theorem primaryNoNL_spec (r : Record) (p : List Char)
    (hp : extractPrimaryContent r = vStr p) (h : primaryNoNL r = true) : '\n' ∉ p := by
  unfold primaryNoNL at h
  rw [hp] at h
  intro hm
  have := List.all_eq_true.mp h '\n' hm
  simp at this

theorem csvRowText_no_nl (r : Record) (hout : restrictedOut r.output = true)
    (hagent : noDelims r.agent_type = true) (hpri : primaryNoNL r = true) :
    '\n' ∉ csvRowText r := by
  obtain ⟨a, out⟩ := r
  obtain ⟨t, ht⟩ := jstr_restricted_some out hout
  obtain ⟨p, hp⟩ := extract_restricted a out hout
  have htn : '\n' ∉ doubleQuotes t := doubleQuotes_no_nl t (jstr_no_nl out hout t ht)
  have hpn : '\n' ∉ doubleQuotes p :=
    doubleQuotes_no_nl p (primaryNoNL_spec ⟨a, out⟩ p hp hpri)
  have han : '\n' ∉ a := fun hm => (noDelims_spec a hagent '\n' hm).2.2 rfl
  unfold csvRowText csvRowTextOf
  simp only [ht, hp, toStringE, Option.getD_some]
  intro hm
  simp at hm
  rcases hm with h | h | h
  · exact han h
  · exact htn h
  · exact hpn h

theorem csvRowText_has_quote (r : Record) : '"' ∈ csvRowText r := by
  unfold csvRowText csvRowTextOf
  simp

/-- C1 (amended): for datasets whose agent labels carry no delimiter
characters, whose outputs are strings, numbers, booleans or flat maps of
primitives, and whose summary columns are newline-free, the 3-column
tabular encoding decodes back to the very same dataset — in particular a
string output holding a double quote followed by a comma survives the
round trip unchanged. -/
theorem tabular_roundtrip_restricted (D : Dataset)
    (h : ∀ r ∈ D.results, restrictedOut r.output = true ∧ noDelims r.agent_type = true ∧
      primaryNoNL r = true) :
    ∃ enc, convertToCSV D = some enc ∧ parseCSV enc = D := by
  obtain ⟨results⟩ := D
  by_cases hemp : results.isEmpty = true
  · obtain rfl : results = [] := List.isEmpty_iff.mp hemp
    refine ⟨csvHeader3, by simp [convertToCSV], ?_⟩
    rfl
  · have hne : results.isEmpty = false := by simpa using hemp
    have hmapM : results.mapM csvRow = some (results.map csvRowText) :=
      mapM_csvRow results fun r hr => (h r hr).1
    have henc : convertToCSV ⟨results⟩ =
        some (joinSep '\n' (csvHeader3 :: results.map csvRowText)) := by
      unfold convertToCSV
      rw [if_neg (by simp [hne])]
      rw [hmapM]
      rfl
    refine ⟨_, henc, ?_⟩
    have hlines : ∀ l ∈ csvHeader3 :: results.map csvRowText, '\n' ∉ l := by
      intro l hl
      rcases List.mem_cons.mp hl with rfl | hl
      · decide
      · obtain ⟨r, hr, rfl⟩ := List.mem_map.mp hl
        exact csvRowText_no_nl r (h r hr).1 (h r hr).2.1 (h r hr).2.2
    have hsplit : splitOnChar '\n' (joinSep '\n' (csvHeader3 :: results.map csvRowText)) =
        csvHeader3 :: results.map csvRowText :=
      splitOnChar_joinSep '\n' _ (by simp) hlines
    have hfilter : nonBlankLines (joinSep '\n' (csvHeader3 :: results.map csvRowText)) =
        csvHeader3 :: results.map csvRowText := by
      unfold nonBlankLines
      rw [hsplit]
      rw [List.filter_eq_self.mpr]
      intro l hl
      rcases List.mem_cons.mp hl with rfl | hl
      · decide
      · obtain ⟨r, hr, rfl⟩ := List.mem_map.mp hl
        exact decide_eq_true (trimJS_ne_nil (csvRowText r) '"' (csvRowText_has_quote r) rfl)
    unfold parseCSV
    rw [hfilter]
    have his3 : (containsSub "raw_json".data (lowerJS csvHeader3) &&
        containsSub "primary_content".data (lowerJS csvHeader3)) = true := by decide
    show Dataset.mk ((results.map csvRowText).filterMap (parseCSVRow
      (containsSub "raw_json".data (lowerJS csvHeader3) &&
        containsSub "primary_content".data (lowerJS csvHeader3)))) = ⟨results⟩
    rw [his3, filterMap_rows results fun r hr => ⟨(h r hr).1, (h r hr).2.1⟩]

end Idp

namespace Idp

/-! ## Indexed-item array rebuild: `setExtend` and the child fold -/

theorem foldr_max_base (ns : List Nat) (b c : Nat) :
    ns.foldr (fun n acc => max (n + 1) acc) (max b c) =
      max c (ns.foldr (fun n acc => max (n + 1) acc) b) := by
  induction ns with
  | nil => simp; omega
  | cons n ns ih => simp only [List.foldr_cons, ih]; omega

theorem jsSetIndex_nat (arr : List Value) (n : Nat) (v : Value) :
    jsSetIndex arr (some ((n : Nat) : Int)) v = setExtend arr n v := by
  unfold jsSetIndex
  simp

theorem setExtend_length (arr : List Value) (n : Nat) (v : Value) :
    (setExtend arr n v).length = max arr.length (n + 1) := by
  unfold setExtend
  by_cases h : n < arr.length
  · simp [h]
    omega
  · simp [h]
    omega

theorem setExtend_get_self (arr : List Value) (n : Nat) (v : Value) :
    (setExtend arr n v).get? n = some v := by
  unfold setExtend
  by_cases h : n < arr.length
  · simp [h, List.getElem?_set_self h]
  · simp only [h, if_neg, reduceIte]
    rw [List.get?_eq_getElem?]
    rw [List.getElem?_append_right (by simp; omega)]
    have h0 : n - (arr ++ List.replicate (n - arr.length) vUndef).length = 0 := by
      simp
      omega
    rw [h0]
    rfl

theorem setExtend_get_other (arr : List Value) (n : Nat) (v : Value) (m : Nat)
    (hm : m ≠ n) (x : Value) (hx : arr.get? m = some x) :
    (setExtend arr n v).get? m = some x := by
  have hlt : m < arr.length := by
    by_contra hc
    rw [List.get?_eq_getElem?, List.getElem?_eq_none (by omega)] at hx
    cases hx
  unfold setExtend
  by_cases h : n < arr.length
  · rw [List.get?_eq_getElem?] at hx ⊢
    rw [if_pos h, List.getElem?_set_ne (fun hh => hm hh.symm)]
    exact hx
  · simp only [h, if_neg, reduceIte]
    rw [List.get?_eq_getElem?] at hx ⊢
    rw [List.append_assoc, List.getElem?_append, if_pos hlt]
    exact hx

theorem xmlArrFold_preserve :
    ∀ (ech : List XNode) (ns : List Nat) (arr : List Value) (m : Nat) (x : Value),
      List.Forall₂ (fun c n => declaredIdx c = some ((n : Nat) : Int)) ech ns →
      m ∉ ns → (∀ c ∈ ech, c.isElem = true) →
      arr.get? m = some x → (xmlArrFold ech arr).get? m = some x := by
  intro ech ns arr m x hf
  induction hf generalizing arr with
  | nil => intro _ _ hx; exact hx
  | cons hcn hf ih =>
    intro hm helem hx
    rename_i c n ech' ns'
    have hce : c.isElem = true := helem c (by simp)
    have hm1 : m ≠ n := fun hh => hm (by simp [hh])
    have hm2 : m ∉ ns' := fun hh => hm (by simp [hh])
    simp only [xmlArrFold, hce, if_pos, reduceIte]
    rw [hcn]
    refine ih _ hm2 (fun d hd => helem d (by simp [hd])) ?_
    rw [jsSetIndex_nat]
    exact setExtend_get_other arr n (xmlElementToJson c) m hm1 x hx

theorem xmlArrFold_length :
    ∀ (ech : List XNode) (ns : List Nat) (arr : List Value),
      List.Forall₂ (fun c n => declaredIdx c = some ((n : Nat) : Int)) ech ns →
      (∀ c ∈ ech, c.isElem = true) →
      (xmlArrFold ech arr).length = ns.foldr (fun n acc => max (n + 1) acc) arr.length := by
  intro ech ns arr hf
  induction hf generalizing arr with
  | nil => intro _; rfl
  | cons hcn hf ih =>
    intro helem
    rename_i c n ech' ns'
    have hce : c.isElem = true := helem c (by simp)
    simp only [xmlArrFold, hce, if_pos, reduceIte]
    rw [hcn, jsSetIndex_nat]
    rw [ih (setExtend arr n (xmlElementToJson c)) (fun d hd => helem d (by simp [hd]))]
    rw [setExtend_length]
    simp only [List.foldr_cons]
    exact foldr_max_base ns' arr.length (n + 1)

theorem xmlArrFold_place :
    ∀ (ech : List XNode) (ns : List Nat) (arr : List Value),
      List.Forall₂ (fun c n => declaredIdx c = some ((n : Nat) : Int)) ech ns →
      ns.Pairwise (· ≠ ·) → (∀ c ∈ ech, c.isElem = true) →
      List.Forall₂ (fun c n => (xmlArrFold ech arr).get? n = some (xmlElementToJson c)) ech ns := by
  intro ech ns arr hf
  induction hf generalizing arr with
  | nil => intro _ _; exact List.Forall₂.nil
  | cons hcn hf ih =>
    intro hp helem
    rename_i c n ech' ns'
    have hce : c.isElem = true := helem c (by simp)
    refine List.Forall₂.cons ?_ ?_
    · simp only [xmlArrFold, hce, if_pos, reduceIte]
      rw [hcn]
      refine xmlArrFold_preserve ech' ns' _ n (xmlElementToJson c) hf
        (by intro hh; exact ((List.pairwise_cons.mp hp).1 n hh) rfl)
        (fun d hd => helem d (by simp [hd])) ?_
      rw [jsSetIndex_nat]
      exact setExtend_get_self arr n (xmlElementToJson c)
    · have hstep :=
        ih (jsSetIndex arr (declaredIdx c) (xmlElementToJson c))
          (List.pairwise_cons.mp hp).2 (fun d hd => helem d (by simp [hd]))
      have hfold : xmlArrFold (c :: ech') arr =
          xmlArrFold ech' (jsSetIndex arr (declaredIdx c) (xmlElementToJson c)) := by
        simp [xmlArrFold, hce]
      rw [hfold]
      exact hstep


theorem xmlArrFold_filter (ch : List XNode) (arr : List Value) :
    xmlArrFold ch arr = xmlArrFold (ch.filter XNode.isElem) arr := by
  induction ch generalizing arr with
  | nil => rfl
  | cons n ns ih =>
    by_cases h : n.isElem = true
    · simp only [xmlArrFold, h, if_pos, List.filter_cons_of_pos h, reduceIte]
      exact ih _
    · simp only [xmlArrFold, h, List.filter_cons_of_neg h, reduceIte]
      exact ih _

theorem foldr_max_le (ns : List Nat) (mx : Nat) (hub : ∀ n ∈ ns, n ≤ mx) :
    ns.foldr (fun n acc => max (n + 1) acc) 0 ≤ mx + 1 := by
  induction ns with
  | nil => simp
  | cons n ns ih =>
    simp only [List.foldr_cons]
    have h1 := hub n (by simp)
    have h2 := ih (fun m hm => hub m (by simp [hm]))
    omega

theorem foldr_max_ge (ns : List Nat) (n : Nat) (h : n ∈ ns) :
    n + 1 ≤ ns.foldr (fun m acc => max (m + 1) acc) 0 := by
  induction ns with
  | nil => cases h
  | cons m ns ih =>
    simp only [List.foldr_cons]
    rcases List.mem_cons.mp h with h | h
    · subst h
      exact Nat.le_max_left _ _
    · exact le_trans (ih h) (Nat.le_max_right _ _)

theorem elemChildren_all_elem (t : List Char)
    (a : List (List Char × List Char)) (ch : List XNode) :
    ∀ c ∈ (XNode.elem t a ch).elemChildren, c.isElem = true := by
  intro c hc
  simp only [XNode.elemChildren] at hc
  exact (List.mem_filter.mp hc).2

/-- C5: a markup node all of whose element children are synthetic indexed
items (tag `item` with an `index` attribute) decodes to a List sized to
the maximum declared index plus one, with each decoded child placed at
its declared index, also when the indices are sparse or out of document
order. -/
theorem markup_indexed_items_rebuild_list
    (t : List Char) (a : List (List Char × List Char)) (ch : List XNode)
    (ns : List Nat) (mx : Nat)
    (hne : (XNode.elem t a ch).elemChildren ≠ [])
    (hitem : ((XNode.elem t a ch).elemChildren.all
      fun c => decide (c.tagOf = "item".data ∧ c.hasAttr "index".data)) = true)
    (hidx : List.Forall₂ (fun c n => declaredIdx c = some ((n : Nat) : Int))
      (XNode.elem t a ch).elemChildren ns)
    (hnodup : ns.Pairwise (fun i j => i ≠ j))
    (hmx : mx ∈ ns) (hub : ∀ n ∈ ns, n ≤ mx) :
    ∃ L, xmlElementToJson (XNode.elem t a ch) = vList L ∧
      L.length = mx + 1 ∧
      List.Forall₂ (fun c n => L.get? n = some (xmlElementToJson c))
        (XNode.elem t a ch).elemChildren ns := by
  have helem := elemChildren_all_elem t a ch
  have hempty : ¬ ((XNode.elem t a ch).elemChildren.isEmpty = true) :=
    fun hh => hne (List.isEmpty_iff.mp hh)
  have hunf : xmlElementToJson (XNode.elem t a ch) = vList (xmlArrFold ch []) := by
    simp only [xmlElementToJson]
    rw [if_neg hempty, if_pos ?hcond]
    case hcond => exact hitem
  refine ⟨xmlArrFold ch [], hunf, ?_, ?_⟩
  · rw [show xmlArrFold ch [] = xmlArrFold (XNode.elem t a ch).elemChildren [] from
      xmlArrFold_filter ch []]
    rw [xmlArrFold_length _ ns [] hidx helem]
    have hle := foldr_max_le ns mx hub
    have hge := foldr_max_ge ns mx hmx
    simp only [List.length_nil]
    omega
  · rw [show xmlArrFold ch [] = xmlArrFold (XNode.elem t a ch).elemChildren [] from
      xmlArrFold_filter ch []]
    exact xmlArrFold_place _ ns [] hidx hnodup helem


theorem markup_indexed_items_rebuild_list_witness :
    ∃ L, xmlElementToJson (XNode.elem "a".data []
        [XNode.elem "item".data [("index".data, "2".data)] [XNode.text "b".data],
         XNode.elem "item".data [("index".data, "0".data)] [XNode.text "a".data]])
        = vList L ∧
      L.length = 3 ∧
      List.Forall₂ (fun c n => L.get? n = some (xmlElementToJson c))
        (XNode.elem "a".data []
          [XNode.elem "item".data [("index".data, "2".data)] [XNode.text "b".data],
           XNode.elem "item".data [("index".data, "0".data)] [XNode.text "a".data]]).elemChildren
        [2, 0] :=
  markup_indexed_items_rebuild_list "a".data []
    [XNode.elem "item".data [("index".data, "2".data)] [XNode.text "b".data],
     XNode.elem "item".data [("index".data, "0".data)] [XNode.text "a".data]]
    [2, 0] 2
    (by simp [XNode.elemChildren, XNode.isElem])
    (by rfl)
    (List.Forall₂.cons (by rfl) (List.Forall₂.cons (by rfl) List.Forall₂.nil))
    (by decide) (by decide) (by decide)


/-! ## Object rebuild: last sibling with a tag wins -/

theorem find_map_replace (m : List (List Char × Value)) (k : List Char) (v : Value)
    (h : (m.any fun p => p.1 = k) = true) :
    ((m.map fun p => if p.1 = k then (k, v) else p).find? fun p => p.1 = k)
      = some (k, v) := by
  induction m with
  | nil => simp at h
  | cons p m ih =>
    by_cases hp : p.1 = k
    · simp [List.find?, hp]
    · rw [List.any_cons, show (decide (p.1 = k)) = false from by simp [hp],
        Bool.false_or] at h
      simp only [List.map_cons, if_neg hp, List.find?]
      rw [show (decide (p.1 = k)) = false from by simp [hp]]
      exact ih h

theorem find_none_of_any_false (m : List (List Char × Value)) (k : List Char)
    (h : (m.any fun p => p.1 = k) = false) :
    (m.find? fun p => p.1 = k) = none := by
  rw [List.find?_eq_none]
  intro p hp
  simp only [List.any_eq_false] at h
  simpa using h p hp

theorem objIns_find_self (m : List (List Char × Value)) (k : List Char) (v : Value) :
    ((objIns m k v).find? fun p => p.1 = k) = some (k, v) := by
  unfold objIns
  by_cases h : (m.any fun p => p.1 = k) = true
  · rw [if_pos h]
    exact find_map_replace m k v h
  · rw [if_neg h, List.find?_append,
      find_none_of_any_false m k (Bool.eq_false_iff.mpr h)]
    simp [List.find?]

theorem objIns_find_other (m : List (List Char × Value)) (k : List Char) (v : Value)
    (τ : List Char) (hkτ : k ≠ τ) :
    ((objIns m k v).find? fun p => p.1 = τ) = (m.find? fun p => p.1 = τ) := by
  unfold objIns
  by_cases h : (m.any fun p => p.1 = k) = true
  · rw [if_pos h]
    clear h
    induction m with
    | nil => rfl
    | cons p m ih =>
      by_cases hp : p.1 = k
      · have hpτ : ¬ p.1 = τ := by rw [hp]; exact hkτ
        simp only [List.map_cons, if_pos hp, List.find?]
        rw [show (decide ((k, v).1 = τ)) = false from by simp [hkτ],
          show (decide (p.1 = τ)) = false from by simp [hpτ]]
        exact ih
      · simp only [List.map_cons, if_neg hp]
        by_cases hpτ : p.1 = τ
        · simp [List.find?, hpτ]
        · simp only [List.find?]
          rw [show (decide (p.1 = τ)) = false from by simp [hpτ]]
          exact ih
  · rw [if_neg h, List.find?_append]
    cases hm : m.find? fun p => p.1 = τ with
    | some q => rfl
    | none => simp [List.find?, hkτ]

theorem objIns_keys_nodup (m : List (List Char × Value)) (k : List Char) (v : Value)
    (h : (m.map Prod.fst).Nodup) : ((objIns m k v).map Prod.fst).Nodup := by
  unfold objIns
  by_cases hany : (m.any fun p => p.1 = k) = true
  · rw [if_pos hany, List.map_map]
    have hkeys : (m.map fun p => Prod.fst (if p.1 = k then (k, v) else p))
        = m.map Prod.fst := by
      refine List.map_congr_left ?_
      intro p hp
      by_cases hpk : p.1 = k
      · simp [if_pos hpk, hpk]
      · simp [if_neg hpk]
    rw [show ((fun p => Prod.fst p) ∘ fun p => if p.1 = k then (k, v) else p)
        = fun p => Prod.fst (if p.1 = k then (k, v) else p) from rfl]
    rw [hkeys]
    exact h
  · rw [if_neg hany, List.map_append]
    rw [List.nodup_append]
    refine ⟨h, by simp, ?_⟩
    intro x hx hx2
    simp only [List.map_cons, List.map_nil, List.mem_singleton] at hx2
    simp only [List.mem_map] at hx
    obtain ⟨p, hp, hpk⟩ := hx
    have hany' : (m.any fun q => q.1 = k) = false := Bool.eq_false_iff.mpr hany
    rw [List.any_eq_false] at hany'
    have hcontra := hany' p hp
    rw [hpk, hx2] at hcontra
    simp at hcontra

theorem xmlObjFold_keys_nodup (ch : List XNode) (m : List (List Char × Value))
    (h : (m.map Prod.fst).Nodup) : ((xmlObjFold ch m).map Prod.fst).Nodup := by
  induction ch generalizing m with
  | nil => exact h
  | cons n ch ih =>
    by_cases hn : n.isElem = true
    · simp only [xmlObjFold, hn, reduceIte]
      exact ih _ (objIns_keys_nodup m n.tagOf (xmlElementToJson n) h)
    · simp only [xmlObjFold, hn, reduceIte]
      exact ih _ h

theorem xmlObjFold_find_absent (ch : List XNode) (τ : List Char)
    (habs : ∀ n ∈ ch, n.isElem = true → n.tagOf ≠ τ)
    (m : List (List Char × Value)) :
    ((xmlObjFold ch m).find? fun p => p.1 = τ) = (m.find? fun p => p.1 = τ) := by
  induction ch generalizing m with
  | nil => rfl
  | cons n ch ih =>
    by_cases hn : n.isElem = true
    · simp only [xmlObjFold, hn, reduceIte]
      rw [ih (fun d hd => habs d (by simp [hd])) _]
      exact objIns_find_other m n.tagOf (xmlElementToJson n) τ (habs n (by simp) hn)
    · simp only [xmlObjFold, hn, reduceIte]
      exact ih (fun d hd => habs d (by simp [hd])) m

theorem xmlObjFold_find (ch : List XNode) (τ : List Char) (c : XNode)
    (hlast : lastWithTag ch τ = some c) (m : List (List Char × Value)) :
    ((xmlObjFold ch m).find? fun p => p.1 = τ)
      = some (τ, xmlElementToJson c) := by
  induction ch generalizing m with
  | nil => exact Option.noConfusion hlast
  | cons n ch ih =>
    by_cases hn : n.isElem = true
    · by_cases ht : n.tagOf = τ
      · simp only [xmlObjFold, hn, reduceIte]
        unfold lastWithTag at hlast
        rw [List.filter_cons_of_pos (by simp [hn, ht])] at hlast
        cases hfil : ch.filter fun d => d.isElem ∧ d.tagOf = τ with
        | nil =>
          rw [hfil, List.getLast?_singleton] at hlast
          injection hlast with hlast
          subst hlast
          have habs : ∀ d ∈ ch, d.isElem = true → d.tagOf ≠ τ := by
            intro d hd hde hdt
            have : d ∈ ch.filter fun d => d.isElem ∧ d.tagOf = τ :=
              List.mem_filter.mpr ⟨hd, by simp [hde, hdt]⟩
            rw [hfil] at this
            cases this
          rw [xmlObjFold_find_absent ch τ habs _]
          rw [← ht]
          exact objIns_find_self m n.tagOf (xmlElementToJson n)
        | cons d ds =>
          rw [hfil, List.getLast?_cons_cons] at hlast
          refine ih ?_ _
          unfold lastWithTag
          rw [hfil]
          exact hlast
      · simp only [xmlObjFold, hn, reduceIte]
        refine ih ?_ _
        unfold lastWithTag at hlast ⊢
        rwa [List.filter_cons_of_neg (by simp [ht])] at hlast
    · simp only [xmlObjFold, hn, reduceIte]
      refine ih ?_ _
      unfold lastWithTag at hlast ⊢
      rwa [List.filter_cons_of_neg (by simp [hn])] at hlast


/-- C10: when a markup node's element children are not all synthetic
indexed items, decoding rebuilds a Map keyed by child tag name in which
the last child in document order bearing a tag supplies that tag's value,
and the key list is duplicate-free — so duplicate sibling tags collapse
to a single entry and earlier same-named siblings are discarded. -/
theorem markup_object_last_sibling_wins
    (t : List Char) (a : List (List Char × List Char)) (ch : List XNode)
    (hne : (XNode.elem t a ch).elemChildren ≠ [])
    (hnotall : ¬ ((XNode.elem t a ch).elemChildren.all
      fun c => decide (c.tagOf = "item".data ∧ c.hasAttr "index".data)) = true)
    (τ : List Char) (c : XNode) (hlast : lastWithTag ch τ = some c) :
    ∃ kvs, xmlElementToJson (XNode.elem t a ch) = vMap kvs ∧
      (kvs.map Prod.fst).Nodup ∧
      (kvs.find? fun p => p.1 = τ) = some (τ, xmlElementToJson c) := by
  have hempty : ¬ ((XNode.elem t a ch).elemChildren.isEmpty = true) :=
    fun hh => hne (List.isEmpty_iff.mp hh)
  have hunf : xmlElementToJson (XNode.elem t a ch) = vMap (xmlObjFold ch []) := by
    simp only [xmlElementToJson]
    rw [if_neg hempty, if_neg hnotall]
  exact ⟨xmlObjFold ch [], hunf,
    xmlObjFold_keys_nodup ch [] (by simp),
    xmlObjFold_find ch τ c hlast []⟩

theorem markup_object_last_sibling_wins_witness :
    ∃ kvs, xmlElementToJson (XNode.elem "obj".data []
        [XNode.elem "x".data [] [XNode.text "1".data],
         XNode.elem "x".data [] [XNode.text "2".data]]) = vMap kvs ∧
      (kvs.map Prod.fst).Nodup ∧
      (kvs.find? fun p => p.1 = "x".data)
        = some ("x".data, xmlElementToJson (XNode.elem "x".data [] [XNode.text "2".data])) :=
  markup_object_last_sibling_wins "obj".data []
    [XNode.elem "x".data [] [XNode.text "1".data],
     XNode.elem "x".data [] [XNode.text "2".data]]
    (by simp [XNode.elemChildren, XNode.isElem])
    (by decide)
    "x".data (XNode.elem "x".data [] [XNode.text "2".data]) (by rfl)


/-! ## Legacy 2-column tabular rows -/

theorem parseCSVLine_row2 (a t : List Char)
    (ha : ∀ c ∈ a, c ≠ '"' ∧ c ≠ ',') (ht : ∀ c ∈ t, c ≠ '"' ∧ c ≠ ',') :
    parseCSVLine (a ++ ',' :: t) = [a, t] := by
  unfold parseCSVLine
  rw [parseCSVLineAux_plain a ha]
  simp only [List.nil_append]
  rw [scanStep_comma]
  simp only [List.nil_append]
  have h2 := parseCSVLineAux_plain t ht [] [] [a]
  simp only [List.append_nil, List.nil_append] at h2
  rw [h2]
  simp [parseCSVLineAux]

theorem parseCSVRow_legacy (a t : List Char)
    (ha : ∀ c ∈ a, c ≠ '"' ∧ c ≠ ',') (ht : ∀ c ∈ t, c ≠ '"' ∧ c ≠ ',') :
    parseCSVRow false (a ++ ',' :: t) = some ⟨a, legacyCell t⟩ := by
  unfold parseCSVRow
  rw [parseCSVLine_row2 a t ha ht]
  simp

theorem filterMap_rows_legacy (rows : List (List Char × List Char))
    (h : ∀ r ∈ rows, noDelims r.1 = true ∧ noDelims r.2 = true) :
    (rows.map fun r => r.1 ++ ',' :: r.2).filterMap (parseCSVRow false)
      = rows.map fun r => ⟨r.1, legacyCell r.2⟩ := by
  induction rows with
  | nil => rfl
  | cons r rows ih =>
    have h1 := (h r (by simp)).1
    have h2 := (h r (by simp)).2
    rw [List.map_cons, List.filterMap_cons,
      parseCSVRow_legacy r.1 r.2
        (fun c hc => ⟨(noDelims_spec r.1 h1 c hc).2.1, (noDelims_spec r.1 h1 c hc).1⟩)
        (fun c hc => ⟨(noDelims_spec r.2 h2 c hc).2.1, (noDelims_spec r.2 h2 c hc).1⟩),
      ih fun x hx => h x (by simp [hx])]
    rfl


/-- C7: legacy inputs decode. Tabular text under the 2-column
`agent_type,output` header decodes each row to a record whose agent label
is the first field and whose output follows the legacy cell rule — kept
as a plain string unless the trimmed text is brace- or bracket-delimited
(only then is a JSON parse attempted) — and the legacy markup document
with `r` record tags and `o` output children decodes to records with the
right agent labels and a string or rebuilt-object output. -/
theorem legacy_inputs_decode (rows : List (List Char × List Char))
    (h : ∀ r ∈ rows, noDelims r.1 = true ∧ noDelims r.2 = true) :
    parseCSV (joinSep '\n' ("agent_type,output".data ::
        rows.map fun r => r.1 ++ ',' :: r.2))
      = ⟨rows.map fun r => ⟨r.1, legacyCell r.2⟩⟩ ∧
    (∀ t, ¬ (((trimJS t).head? = some '{' ∧ (trimJS t).getLast? = some '}') ∨
        ((trimJS t).head? = some '[' ∧ (trimJS t).getLast? = some ']')) →
      legacyCell t = vStr t) ∧
    parseXML ("<dataset><r><agent_type>alpha</agent_type><o>hello</o></r><r><agent_type>beta</agent_type><o><name>Bob</name></o></r></dataset>").data
      = ⟨[⟨"alpha".data, vStr "hello".data⟩,
          ⟨"beta".data, vMap [("name".data, vStr "Bob".data)]⟩]⟩ := by
  refine ⟨?_, ?_, ?_⟩
  · have hnl : ∀ l ∈ ("agent_type,output".data ::
        rows.map fun r => r.1 ++ ',' :: r.2), '\n' ∉ l := by
      intro l hl
      rcases List.mem_cons.mp hl with rfl | hl
      · decide
      · obtain ⟨r, hr, rfl⟩ := List.mem_map.mp hl
        intro hm
        rcases List.mem_append.mp hm with hm | hm
        · exact (noDelims_spec r.1 (h r hr).1 '\n' hm).2.2 rfl
        · rcases List.mem_cons.mp hm with heq | hm
          · exact absurd heq.symm (by decide)
          · exact (noDelims_spec r.2 (h r hr).2 '\n' hm).2.2 rfl
    have hsplit : nonBlankLines (joinSep '\n' ("agent_type,output".data ::
        rows.map fun r => r.1 ++ ',' :: r.2))
        = "agent_type,output".data :: rows.map fun r => r.1 ++ ',' :: r.2 := by
      unfold nonBlankLines
      rw [splitOnChar_joinSep '\n' _ (by simp) hnl]
      rw [List.filter_cons_of_pos (by decide)]
      rw [List.filter_eq_self.mpr ?_]
      intro l hl
      obtain ⟨r, hr, rfl⟩ := List.mem_map.mp hl
      simp only [decide_eq_true_eq]
      exact trimJS_ne_nil _ ',' (by simp) (by decide)
    unfold parseCSV
    rw [hsplit]
    simp only []
    rw [show (containsSub "raw_json".data (lowerJS "agent_type,output".data) &&
      containsSub "primary_content".data (lowerJS "agent_type,output".data)) = false
      from by decide]
    rw [filterMap_rows_legacy rows h]
  · intro t hn
    simp only [legacyCell]
    rw [if_neg hn]
  · rfl

theorem legacy_inputs_decode_witness :
    parseCSV (joinSep '\n' ("agent_type,output".data ::
        ([("x".data, "hi".data)].map fun r => r.1 ++ ',' :: r.2)))
      = ⟨[("x".data, "hi".data)].map fun r => ⟨r.1, legacyCell r.2⟩⟩ ∧
    (∀ t, ¬ (((trimJS t).head? = some '{' ∧ (trimJS t).getLast? = some '}') ∨
        ((trimJS t).head? = some '[' ∧ (trimJS t).getLast? = some ']')) →
      legacyCell t = vStr t) ∧
    parseXML ("<dataset><r><agent_type>alpha</agent_type><o>hello</o></r><r><agent_type>beta</agent_type><o><name>Bob</name></o></r></dataset>").data
      = ⟨[⟨"alpha".data, vStr "hello".data⟩,
          ⟨"beta".data, vMap [("name".data, vStr "Bob".data)]⟩]⟩ :=
  legacy_inputs_decode [("x".data, "hi".data)] (by decide)


/-- C9: whenever the current tabular encoder succeeds its output starts
with exactly the 3-column header line `agent_type,raw_json,primary_content`
(the whole text when there are no records, otherwise followed by a
newline); the empty dataset encodes to exactly the header-only text, and
decoding the header-only text gives the empty dataset. -/
theorem tabular_header_first (D : Dataset) (enc : List Char)
    (henc : convertToCSV D = some enc) :
    (enc = csvHeader3 ∨ ∃ rest, enc = csvHeader3 ++ '\n' :: rest) ∧
    convertToCSV ⟨[]⟩ = some csvHeader3 ∧
    parseCSV csvHeader3 = ⟨[]⟩ := by
  refine ⟨?_, rfl, rfl⟩
  unfold convertToCSV at henc
  by_cases hE : D.results.isEmpty = true
  · rw [if_pos hE] at henc
    left
    exact (Option.some_inj.mp henc).symm
  · rw [if_neg hE] at henc
    cases hres : D.results with
    | nil => rw [hres] at hE; exact absurd rfl hE
    | cons r l =>
      rw [hres, List.mapM_cons] at henc
      cases hr : csvRow r with
      | none => rw [hr] at henc; exact Option.noConfusion henc
      | some a =>
        cases hl : l.mapM csvRow with
        | none => rw [hr, hl] at henc; exact Option.noConfusion henc
        | some as =>
          rw [hr, hl] at henc
          simp at henc
          subst henc
          right
          exact ⟨joinSep '\n' (a :: as), rfl⟩

theorem tabular_header_first_witness :
    ((csvHeader3 : List Char) = csvHeader3 ∨
      ∃ rest, (csvHeader3 : List Char) = csvHeader3 ++ '\n' :: rest) ∧
    convertToCSV ⟨[]⟩ = some csvHeader3 ∧
    parseCSV csvHeader3 = ⟨[]⟩ :=
  tabular_header_first ⟨[]⟩ csvHeader3 (by rfl)


theorem parseCSVRow_fallback (line a j p : List Char) (rest : List (List Char))
    (hfields : parseCSVLine line = a :: j :: p :: rest)
    (hfail : jsonParse j = none) :
    parseCSVRow true line = some ⟨a, vStr p⟩ := by
  unfold parseCSVRow
  rw [hfields]
  rw [if_neg (by simp)]
  simp only []
  rw [if_pos (by simp)]
  simp only [List.getD_cons_succ, List.getD_cons_zero, hfail]
  rw [if_pos (by simp)]

/-- C4: a tabular row whose second column is not parseable native-form
text degrades instead of aborting: the row decodes to a record whose
output is the third column as a plain string, and a whole 3-column
document holding such a row still decodes to the dataset with that
degraded record. -/
theorem tabular_malformed_cell_degrades
    (line a j p : List Char) (rest : List (List Char))
    (hfields : parseCSVLine line = a :: j :: p :: rest)
    (hfail : jsonParse j = none)
    (hnl : '\n' ∉ line) (hnb : trimJS line ≠ []) :
    parseCSVRow true line = some ⟨a, vStr p⟩ ∧
    parseCSV (joinSep '\n' [csvHeader3, line]) = ⟨[⟨a, vStr p⟩]⟩ := by
  refine ⟨parseCSVRow_fallback line a j p rest hfields hfail, ?_⟩
  have hsplit : nonBlankLines (joinSep '\n' [csvHeader3, line])
      = [csvHeader3, line] := by
    unfold nonBlankLines
    rw [splitOnChar_joinSep '\n' [csvHeader3, line] (by simp) ?_]
    · rw [List.filter_cons_of_pos (by decide),
        List.filter_cons_of_pos (by simpa using hnb)]
      rfl
    · intro l hl
      rcases List.mem_cons.mp hl with rfl | hl
      · decide
      · rcases List.mem_cons.mp hl with rfl | hl
        · exact hnl
        · cases hl
  unfold parseCSV
  rw [hsplit]
  simp only []
  rw [show (containsSub "raw_json".data (lowerJS csvHeader3) &&
    containsSub "primary_content".data (lowerJS csvHeader3)) = true from by decide]
  rw [show ([line].filterMap (parseCSVRow true))
      = [Record.mk a (vStr p)] from by
    rw [List.filterMap_cons, parseCSVRow_fallback line a j p rest hfields hfail]
    rfl]

theorem tabular_malformed_cell_degrades_witness :
    parseCSVRow true "x,notjson,fallback".data
      = some ⟨"x".data, vStr "fallback".data⟩ ∧
    parseCSV (joinSep '\n' [csvHeader3, "x,notjson,fallback".data])
      = ⟨[⟨"x".data, vStr "fallback".data⟩]⟩ :=
  tabular_malformed_cell_degrades "x,notjson,fallback".data
    "x".data "notjson".data "fallback".data []
    (by rfl) (by rfl) (by decide) (by decide)


/-- C6: the markup encoder's tag sanitizer agrees with the specified
rule on every key — characters outside A-Za-z0-9 and underscore become
underscores, with an underscore prefixed exactly when the result is
empty or starts with a digit; the key "user name!" sanitizes to
user_name_, and the decoded map carries the sanitized key, not the
original one. -/
theorem safe_tag_sanitization :
    (∀ key, getSafeXmlTag key = specSafeTag key) ∧
    getSafeXmlTag "user name!".data = "user_name_".data ∧
    (convertToXML ⟨[⟨"t".data, vMap [("user name!".data, vStr "v".data)]⟩]⟩).map parseXML
      = some ⟨[⟨"t".data, vMap [("user_name_".data, vStr "v".data)]⟩]⟩ := by
  refine ⟨?_, by rfl, by rfl⟩
  intro key
  have hchar : ∀ c, (if isSafeTagChar c then c else '_') = specSanitizedChar c := by
    intro c
    unfold specSanitizedChar
    by_cases h : ('A' ≤ c ∧ c ≤ 'Z') ∨ ('a' ≤ c ∧ c ≤ 'z') ∨
        ('0' ≤ c ∧ c ≤ '9') ∨ c = '_'
    · have ht : isSafeTagChar c = true := by
        unfold isSafeTagChar
        exact decide_eq_true (by tauto)
      rw [if_pos ht, if_pos h]
    · have hf : ¬ isSafeTagChar c = true := by
        intro hh
        unfold isSafeTagChar at hh
        exact h (by have := of_decide_eq_true hh; tauto)
      rw [if_neg hf, if_neg h]
  have hmap : (key.map fun c => if isSafeTagChar c then c else '_')
      = key.map specSanitizedChar :=
    List.map_congr_left fun c _ => hchar c
  unfold getSafeXmlTag specSafeTag
  simp only [hmap]
  cases hs : key.map specSanitizedChar with
  | nil => rfl
  | cons c s => by_cases hd : c.isDigit = true <;> simp [hd]


/-- C3: markup decoding fails soft: an input whose text does not parse
as markup, and likewise a parsed document holding no record container
element under either the current or the legacy naming convention,
decodes to the empty dataset instead of an error. -/
theorem markup_decode_fails_soft (xml : List Char)
    (h : xmlParse xml = none ∨
      ∃ root, xmlParse xml = some root ∧
        elemsByTagIncl "result".data root = [] ∧
        elemsByTagIncl "r".data root = []) :
    parseXML xml = ⟨[]⟩ := by
  unfold parseXML
  rcases h with h | ⟨root, hr, h1, h2⟩
  · rw [h]
  · rw [hr]
    simp [h1, h2]

theorem markup_decode_fails_soft_witness :
    parseXML "not xml at all".data = ⟨[]⟩ :=
  markup_decode_fails_soft "not xml at all".data (Or.inl (by rfl))


/-- C8 counterexample: the agent label audio2 contains the substring
audio and the output holds a nested transcription.text string, yet the
summarizer returns the analysis field, not the transcription text — the
code compares the agent label to audio with strict equality rather than
by substring. -/
theorem summarizer_audio_substring_cex :
    containsSub "audio".data "audio2".data = true ∧
    extractPrimaryContent ⟨"audio2".data,
      vMap [("analysis".data, vStr "A".data),
            ("transcription".data, vMap [("text".data, vStr "T".data)])]⟩
      = vStr "A".data ∧
    vStr "A".data ≠ vStr "T".data := by
  refine ⟨by rfl, by rfl, by simp⟩

/-- C8 (amended): for a record whose output is a map holding a truthy
nested transcription.text entry, the summarizer returns that
transcription text when the agent label is exactly audio (strict
equality, not substring containment). -/
theorem summarizer_audio_exact (a : List Char) (kvs : List (List Char × Value))
    (ha : a = "audio".data)
    (htr : ((vMap kvs).getProp "transcription".data).truthy = true)
    (htx : (((vMap kvs).getProp "transcription".data).getProp "text".data).truthy
      = true) :
    extractPrimaryContent ⟨a, vMap kvs⟩
      = ((vMap kvs).getProp "transcription".data).getProp "text".data := by
  subst ha
  simp only [extractPrimaryContent]
  simp only [extractFromObject]
  rw [if_pos ⟨trivial, htr, htx⟩]

theorem summarizer_audio_exact_witness :
    extractPrimaryContent ⟨"audio".data,
        vMap [("transcription".data, vMap [("text".data, vStr "T".data)])]⟩
      = ((vMap [("transcription".data, vMap [("text".data, vStr "T".data)])]).getProp
          "transcription".data).getProp "text".data :=
  summarizer_audio_exact "audio".data
    [("transcription".data, vMap [("text".data, vStr "T".data)])]
    (by rfl) (by rfl) (by rfl)


/-- C2 counterexample: encoding the dataset whose single record output
is the list holding 1, two and null writes the null element as the
literal text null inside its item node — no self-closing nil marker node
appears anywhere in the output — and decoding the produced markup yields
three whitespace-padded strings, not the original list. -/
theorem markup_null_item_cex :
    convertToXML ⟨[⟨"text".data, vList [vNum 1, vStr "two".data, vNull]⟩]⟩
      = some ("<?xml version=\"1.0\" encoding=\"UTF-8\"?>\n<dataset>\n  <result>\n    <agent_type>text</agent_type>\n    <output>\n      <item index=\"0\">\n        1\n      </item>\n      <item index=\"1\">\n        two\n      </item>\n      <item index=\"2\">\n        null\n      </item>\n    </output>\n  </result>\n</dataset>").data ∧
    containsSub "<null/>".data ("<?xml version=\"1.0\" encoding=\"UTF-8\"?>\n<dataset>\n  <result>\n    <agent_type>text</agent_type>\n    <output>\n      <item index=\"0\">\n        1\n      </item>\n      <item index=\"1\">\n        two\n      </item>\n      <item index=\"2\">\n        null\n      </item>\n    </output>\n  </result>\n</dataset>").data = false ∧
    parseXML ("<?xml version=\"1.0\" encoding=\"UTF-8\"?>\n<dataset>\n  <result>\n    <agent_type>text</agent_type>\n    <output>\n      <item index=\"0\">\n        1\n      </item>\n      <item index=\"1\">\n        two\n      </item>\n      <item index=\"2\">\n        null\n      </item>\n    </output>\n  </result>\n</dataset>").data
      = ⟨[⟨"text".data, vList [vStr "\n        1\n      ".data,
          vStr "\n        two\n      ".data, vStr "\n        null\n      ".data]⟩]⟩ ∧
    parseXML ("<?xml version=\"1.0\" encoding=\"UTF-8\"?>\n<dataset>\n  <result>\n    <agent_type>text</agent_type>\n    <output>\n      <item index=\"0\">\n        1\n      </item>\n      <item index=\"1\">\n        two\n      </item>\n      <item index=\"2\">\n        null\n      </item>\n    </output>\n  </result>\n</dataset>").data
      ≠ ⟨[⟨"text".data, vList [vNum 1, vStr "two".data, vNull]⟩]⟩ := by
  refine ⟨by rfl, by rfl, by rfl, ?_⟩
  rw [show parseXML ("<?xml version=\"1.0\" encoding=\"UTF-8\"?>\n<dataset>\n  <result>\n    <agent_type>text</agent_type>\n    <output>\n      <item index=\"0\">\n        1\n      </item>\n      <item index=\"1\">\n        two\n      </item>\n      <item index=\"2\">\n        null\n      </item>\n    </output>\n  </result>\n</dataset>").data
      = ⟨[⟨"text".data, vList [vStr "\n        1\n      ".data,
          vStr "\n        two\n      ".data, vStr "\n        null\n      ".data]⟩]⟩ from rfl]
  simp


/-- C2 (amended): encoding the dataset whose single record output is the
list holding 1, two and null produces exactly three item children with
index attributes 0, 1 and 2, where the null element at index 2 is
emitted as its item node holding the literal text null rather than a
self-closing nil marker; decoding that markup reconstructs the list of
the three whitespace-padded item texts as strings. -/
theorem markup_list_null_as_text :
    convertToXML ⟨[⟨"text".data, vList [vNum 1, vStr "two".data, vNull]⟩]⟩
      = some ("<?xml version=\"1.0\" encoding=\"UTF-8\"?>\n<dataset>\n  <result>\n    <agent_type>text</agent_type>\n    <output>\n      <item index=\"0\">\n        1\n      </item>\n      <item index=\"1\">\n        two\n      </item>\n      <item index=\"2\">\n        null\n      </item>\n    </output>\n  </result>\n</dataset>").data ∧
    parseXML ("<?xml version=\"1.0\" encoding=\"UTF-8\"?>\n<dataset>\n  <result>\n    <agent_type>text</agent_type>\n    <output>\n      <item index=\"0\">\n        1\n      </item>\n      <item index=\"1\">\n        two\n      </item>\n      <item index=\"2\">\n        null\n      </item>\n    </output>\n  </result>\n</dataset>").data
      = ⟨[⟨"text".data, vList [vStr "\n        1\n      ".data,
          vStr "\n        two\n      ".data, vStr "\n        null\n      ".data]⟩]⟩ :=
  ⟨rfl, rfl⟩


/-- C1 counterexample: a record inside the claimed restricted class (its
output is a plain string) whose string holds a raw newline and a comma
does not survive the tabular round trip: the summary column is written
raw, its newline splits the row in two, and the decoded agent labels are
a and b instead of a. -/
theorem tabular_roundtrip_cex :
    restrictedOut (vStr "x\nb,c".data) = true ∧
    convertToCSV ⟨[⟨"a".data, vStr "x\nb,c".data⟩]⟩ = some ("agent_type,raw_json,primary_content\na,\"\"\"x\\nb,c\"\"\",\"x\nb,c\"").data ∧
    (parseCSV ("agent_type,raw_json,primary_content\na,\"\"\"x\\nb,c\"\"\",\"x\nb,c\"").data).results.map Record.agent_type
      = ["a".data, "b".data] ∧
    ["a".data, "b".data] ≠ ["a".data] := by
  refine ⟨by rfl, by rfl, by rfl, by simp⟩

theorem tabular_roundtrip_restricted_witness :
    (∀ r ∈ (Dataset.mk [⟨"a".data, vStr "He said \"hi\", then left".data⟩]).results,
      restrictedOut r.output = true ∧ noDelims r.agent_type = true ∧
        primaryNoNL r = true) ∧
    ∃ enc, convertToCSV ⟨[⟨"a".data, vStr "He said \"hi\", then left".data⟩]⟩
        = some enc ∧
      parseCSV enc = ⟨[⟨"a".data, vStr "He said \"hi\", then left".data⟩]⟩ :=
  ⟨by decide, tabular_roundtrip_restricted
    ⟨[⟨"a".data, vStr "He said \"hi\", then left".data⟩]⟩ (by decide)⟩

end Idp
